import Mathlib

/-!
A verification development for the `varint-simd` codec (`src/lib.rs`).

The SIMD intrinsics of the source are shallowly embedded over `Nat`:
a 16- or 32-byte window of memory is a `List Nat` of byte values, read
through `byteAt` (out-of-range reads yield 0 only for positions the code
never reads; every modelled operation reads exactly the positions the
vector instructions read).  Machine integers are `Nat` with explicit
`% 2 ^ w` where wrap-around matters.

The crate declares `pub mod num;` but `num.rs` is not part of the
sources; the `VarIntTarget` trait implementations it contains
(`MAX_VARINT_BYTES`, `MAX_LAST_VARINT_BYTE`, `num_to_vector_stage1`,
`vector_to_num`, the `cast_u32`/`cast_u64` narrowing helpers and the
zigzag transform) are modelled from the specification, as marked on the
corresponding definitions.
-/

namespace VarintSimd

/-- Byte `i` of a memory window. -/
def byteAt (w : List Nat) (i : Nat) : Nat := w.getD i 0

/-- The most significant bit of a byte, as produced per byte position by
`_mm_movemask_epi8`. -/
def bit7 (b : Nat) : Nat := b / 128 % 2

/-- `mmAux w i f` is the movemask of the `f` bytes of `w` starting at
position `i`: bit `j` of the result is the most significant bit of byte
`i + j`.  `mmAux w 0 16` embeds `_mm_movemask_epi8` on a 16-byte load,
`mmAux w 0 32` embeds `_mm256_movemask_epi8` on a 32-byte load. -/
def mmAux (w : List Nat) : Nat → Nat → Nat
  | _, 0 => 0
  | i, f + 1 => bit7 (byteAt w i) + 2 * mmAux w (i + 1) f

/-- `ctzGo f n` counts the trailing zero bits of `n`, with fuel `f`;
`ctzGo 32 n` is `u32::trailing_zeros(n)` (in particular it returns 32
when `n = 0`). -/
def ctzGo : Nat → Nat → Nat
  | 0, _ => 0
  | f + 1, n => if n % 2 = 1 then 0 else ctzGo f (n / 2) + 1

/-- `bitLenGo f n` is the bit length of `n` (with fuel `f`);
`bitLenGo 32 n` is `32 - u32::leading_zeros(n)` for `n < 2 ^ 32`. -/
def bitLenGo : Nat → Nat → Nat
  | 0, _ => 0
  | f + 1, n => if n = 0 then 0 else bitLenGo f (n / 2) + 1

/-- `contCount w i f` counts how many consecutive bytes of `w`, starting
at position `i` and looking at most `f` bytes ahead, have their
continuation bit (bit 7) set. -/
def contCount (w : List Nat) : Nat → Nat → Nat
  | _, 0 => 0
  | i, f + 1 => if bit7 (byteAt w i) = 1 then contCount w (i + 1) f + 1 else 0

/-- The varint length determined by the continuation bits of a 16-byte
window: the position of the first byte with a clear continuation bit,
plus one (17 when every continuation bit of the window is set). -/
def varintLen (w : List Nat) : Nat := contCount w 0 16 + 1

/-- `varVal w s f` concatenates the low 7 bits of the `f` bytes of `w`
starting at position `s`, byte `s + i` contributing bits `[7i, 7i+7)`. -/
def varVal (w : List Nat) (s : Nat) : Nat → Nat
  | 0 => 0
  | f + 1 => varVal w s f + byteAt w (s + f) % 128 * 2 ^ (7 * f)

/-- A compile-time integer-width target of the codec: the bit width
together with the `MAX_VARINT_BYTES` and `MAX_LAST_VARINT_BYTE`
constants of its `VarIntTarget` implementation. -/
structure Target where
  bits : Nat
  maxVarintBytes : Nat
  maxLastVarintByte : Nat
deriving DecidableEq

/-- Modelled from the spec: `max_varint_bytes = ceil(8/7) = 2`,
`max_last_varint_byte` the largest final byte keeping the value below
`2 ^ 8`. -/
def u8 : Target := ⟨8, 2, 1⟩

/-- Modelled from the spec: `max_varint_bytes = ceil(16/7) = 3`. -/
def u16 : Target := ⟨16, 3, 3⟩

/-- Modelled from the spec: `max_varint_bytes = ceil(32/7) = 5`. -/
def u32 : Target := ⟨32, 5, 15⟩

/-- Modelled from the spec: `max_varint_bytes = ceil(64/7) = 10`. -/
def u64 : Target := ⟨64, 10, 1⟩

/-- The closed set of supported unsigned widths. -/
def supportedTargets : List Target := [u8, u16, u32, u64]

/-- Modelled from the spec: `T::vector_to_num` (missing `num.rs`)
reconstructs the scalar from a 16-byte vector by concatenating each
byte's low 7 bits at position `7 * i`, narrowing to the target width
with silent truncation. -/
def vectorToNum (t : Target) (w : List Nat) : Nat :=
  varVal w 0 16 % 2 ^ t.bits

/-- Modelled from the spec: `T::cast_u32` (missing `num.rs`) narrows a
32-bit intermediate to the target width, truncating silently. -/
def castU32 (t : Target) (x : Nat) : Nat := x % 2 ^ t.bits

/-- Modelled from the spec: `T::cast_u64` (missing `num.rs`) narrows a
64-bit intermediate to the target width, truncating silently. -/
def castU64 (t : Target) (x : Nat) : Nat := x % 2 ^ t.bits

/-- Modelled from the spec: `T::num_to_vector_stage1` (missing `num.rs`)
spreads a scalar into a 16-byte vector, byte `i` holding bits
`[7i, 7i+7)` of the value. -/
def numToVectorStage1 (v : Nat) : List Nat :=
  (List.range 16).map fun i => v / 2 ^ (7 * i) % 128

/-- Embeds `decode_unsafe` (the raw single-value decoder): movemask the
16-byte window, invert, count trailing zeros to find the length, mask
the window to that length and reassemble the 7-bit groups. -/
def decodeRaw (t : Target) (w : List Nat) : Nat × Nat :=
  let bitmask := mmAux w 0 16
  let bmNot := 2 ^ 32 - 1 - bitmask
  let len := ctzGo 32 bmNot + 1
  let varintPart := (List.range 16).map fun i => if i < len then byteAt w i else 0
  (vectorToNum t varintPart, len)

/-- Outcomes of the validated `decode` entry point.  `panicked` records
a Rust index-out-of-bounds panic (an abort, not a returned value). -/
inductive DecodeResult where
  | ok : Nat → Nat → DecodeResult
  | overflow : DecodeResult
  | notEnoughBytes : DecodeResult
  | panicked : DecodeResult
deriving DecidableEq

/-- The overflow check of `decode` (lib.rs lines 80-87):
`result.1 > T::MAX_VARINT_BYTES || result.1 == T::MAX_VARINT_BYTES &&
bytes[(T::MAX_VARINT_BYTES - 1) as usize] > T::MAX_LAST_VARINT_BYTE`.
The `&&` short-circuits, and the indexing of the original input slice
panics when the slice is shorter than `MAX_VARINT_BYTES`. -/
def overflowCheck (t : Target) (bytes : List Nat) (r : Nat × Nat) : DecodeResult :=
  if t.maxVarintBytes < r.2 then .overflow
  else if r.2 = t.maxVarintBytes then
    match bytes[t.maxVarintBytes - 1]? with
    | none => .panicked
    | some b => if t.maxLastVarintByte < b then .overflow else .ok r.1 r.2
  else .ok r.1 r.2

/-- Embeds the validated `decode`: inputs of at least 16 bytes are
passed to the raw decoder directly; shorter non-empty inputs are copied
(at most 10 bytes) into a zero-filled 16-byte buffer first; the empty
input returns `NotEnoughBytes`; the result is overflow-checked. -/
def decode (t : Target) (bytes : List Nat) : DecodeResult :=
  if 16 ≤ bytes.length then
    overflowCheck t bytes (decodeRaw t bytes)
  else if bytes ≠ [] then
    overflowCheck t bytes
      (decodeRaw t (bytes.take (min 10 bytes.length) ++ List.replicate (16 - min 10 bytes.length) 0))
  else .notEnoughBytes

/-- The 16-byte window `decode` actually hands to the raw decoder: the
input itself when it is at least 16 bytes long, otherwise the
zero-filled local buffer holding its first `min 10 length` bytes. -/
def effectiveWindow (bytes : List Nat) : List Nat :=
  if 16 ≤ bytes.length then bytes
  else bytes.take (min 10 bytes.length) ++ List.replicate (16 - min 10 bytes.length) 0

/-- The per-byte "exists" mask of `encode_unsafe`:
`_mm_or_si128(_mm_cmpgt_epi8(stage1, zero), minimum)`, where `minimum`
forces byte position 0 to count as used. -/
def existsList (v : Nat) : List Nat :=
  (List.range 16).map fun i =>
    (if 0 < byteAt (numToVectorStage1 v) i then 255 else 0) ||| (if i = 0 then 255 else 0)

/-- The encoded length computed by `encode_unsafe`:
`32 - leading_zeros(movemask(exists))`. -/
def encLen (v : Nat) : Nat := bitLenGo 32 (mmAux (existsList v) 0 16)

/-- The output buffer of `encode_unsafe`: the stage-1 spread with the
continuation bit set (merged by `_mm_or_si128`) on every byte position
strictly before the last used one. -/
def encList (v : Nat) : List Nat :=
  (List.range 16).map fun i =>
    byteAt (numToVectorStage1 v) i ||| (if i + 1 < encLen v then 128 else 0)

/-- Embeds `encode_unsafe`: spread the scalar into 7-bit groups, mark
the used byte positions (position 0 is always used), take the bit
length of that mask as the encoded length, and set the continuation
bit on every byte position strictly before the last used one. -/
def encodeRaw (v : Nat) : List Nat × Nat := (encList v, encLen v)

/-- Embeds the public `encode` (a safe wrapper around `encode_unsafe`). -/
def encode (v : Nat) : List Nat × Nat := encodeRaw v

/-- Embeds `encode_to_slice`: encode, then copy the first `size` bytes
into the output slice.  `slice[..size]` panics (before writing
anything) when the slice is shorter than `size`; the panic outcome is
`none`. -/
def encodeToSlice (v : Nat) (out : List Nat) : Option (List Nat × Nat) :=
  if out.length < (encode v).2 then none
  else some ((encode v).1.take (encode v).2 ++ out.drop (encode v).2, (encode v).2)

/-- Modelled from the spec: the zigzag transform of the missing
`num.rs`, `zigzag(n) = (n << 1) ^ (n >> (bit_width - 1))` in
two's-complement arithmetic on `w`-bit words (`% 2 ^ w` converts the
signed intermediates to their `w`-bit word representation, `fdiv` is
the arithmetic right shift). -/
def zigzag (w : Nat) (n : Int) : Nat :=
  (((n * 2) % (2 ^ w : Int)).toNat ^^^ ((n.fdiv (2 ^ (w - 1))) % (2 ^ w : Int)).toNat) % 2 ^ w

/-- Reinterpret a `w`-bit word as a two's-complement signed integer. -/
def toIntW (w : Nat) (x : Nat) : Int :=
  if x < 2 ^ (w - 1) then (x : Int) else (x : Int) - 2 ^ w

/-- Modelled from the spec: the inverse zigzag transform of the missing
`num.rs`, `unzigzag(u) = (u >> 1) ^ -(u & 1)` in two's-complement
arithmetic on `w`-bit words, the result read back as a signed value. -/
def unzigzag (w : Nat) (u : Nat) : Int :=
  toIntW w ((u / 2 ^^^ ((-(u % 2 : Int)) % (2 ^ w : Int)).toNat) % 2 ^ w)

/-- Embeds `encode_zigzag`: zigzag, then the unsigned encoder. -/
def encodeZigzag (t : Target) (n : Int) : List Nat × Nat :=
  encode (zigzag t.bits n)

/-- Outcomes of `decode_zigzag` (signed payload). -/
inductive ZigzagResult where
  | ok : Int → Nat → ZigzagResult
  | overflow : ZigzagResult
  | notEnoughBytes : ZigzagResult
  | panicked : ZigzagResult
deriving DecidableEq

/-- Embeds `decode_zigzag`: the unsigned `decode`, then `unzigzag` on
the value. -/
def decodeZigzag (t : Target) (bytes : List Nat) : ZigzagResult :=
  match decode t bytes with
  | .ok v l => .ok (unzigzag t.bits v) l
  | .overflow => .overflow
  | .notEnoughBytes => .notEnoughBytes
  | .panicked => .panicked

/-- `laneAux w i 8` reads bytes `i, …, i+7` of `w` as a little-endian
64-bit lane, as the turbo reconstruction paths do. -/
def laneAux (w : List Nat) : Nat → Nat → Nat
  | _, 0 => 0
  | i, f + 1 => byteAt w i + 256 * laneAux w (i + 1) f

/-- The turbo bit-extraction formula of `decode_two_unsafe` for the
tier `MAX_VARINT_BYTES <= 2` on each 64-bit lane `c`. -/
def tier2Formula (c : Nat) : Nat :=
  (c &&& 0x7f) ||| ((c &&& 0x100) >>> 1)

/-- The turbo bit-extraction formula of `decode_two_unsafe` for the
tier `MAX_VARINT_BYTES <= 3` on each 64-bit lane `c`. -/
def tier3Formula (c : Nat) : Nat :=
  ((c &&& 0x7f) ||| ((c &&& 0x30000) >>> 2)) ||| ((c &&& 0x7f00) >>> 1)

/-- The turbo bit-extraction formula of `decode_two_unsafe` for the
general tier (`MAX_VARINT_BYTES <= 8`) on each 64-bit lane `c`. -/
def tierGFormula (c : Nat) : Nat :=
  ((c &&& 0x7f) ||| ((c &&& 0xf00000000) >>> 4)) |||
    (((c &&& 0x7f000000) >>> 3) ||| ((c &&& 0x7f0000) >>> 2) ||| ((c &&& 0x7f00) >>> 1))

/-- The first varint's window inside `decode_two_unsafe`: bytes before
`first_len` survive the blend mask, every other byte is zeroed. -/
def maskedFirst (w : List Nat) (firstLen : Nat) : List Nat :=
  (List.range 16).map fun i => if i < firstLen then byteAt w i else 0

/-- The second varint's window inside `decode_two_unsafe`: the window is
realigned by `_mm_shuffle_epi8` with indices `i + first_len` (the
instruction reduces indices modulo 16), then masked to `second_len`
bytes. -/
def maskedSecond (w : List Nat) (firstLen secondLen : Nat) : List Nat :=
  (List.range 16).map fun i =>
    if i < secondLen then byteAt w ((i + firstLen) % 16) else 0

/-- The combined vector of the turbo path: the first window ORed with
the second window shifted up by 8 bytes (`_mm_slli_si128(second, 8)`). -/
def combWin (w : List Nat) (firstLen secondLen : Nat) : List Nat :=
  (List.range 16).map fun i =>
    byteAt (maskedFirst w firstLen) i |||
      (if 8 ≤ i then byteAt (maskedSecond w firstLen secondLen) (i - 8) else 0)

/-- Embeds `decode_two_unsafe` (16-byte window, two varints).  The
compile-time length-limit check is a `panic!`, modelled as `none`.  The
`turbo` flag stands for the compile-time
`cfg!(not(all(target_arch = .., target_feature = "bmi2", fast_pdep)))`
configuration; the turbo path additionally requires both maximum
lengths to fit a 64-bit lane. -/
def decodeTwoRaw (t u : Target) (turbo : Bool) (w : List Nat) :
    Option (Nat × Nat × Nat × Nat) :=
  if 16 < t.maxVarintBytes + u.maxVarintBytes then none
  else
    let bitmask := mmAux w 0 16
    let bmNot := 2 ^ 32 - 1 - bitmask
    let firstLen := ctzGo 32 bmNot + 1
    let secondLen := ctzGo 32 (bmNot / 2 ^ firstLen) + 1
    if t.maxVarintBytes ≤ 8 ∧ u.maxVarintBytes ≤ 8 ∧ turbo = true then
      let c0 := laneAux (combWin w firstLen secondLen) 0 8
      let c1 := laneAux (combWin w firstLen secondLen) 8 8
      let x0 :=
        if t.maxVarintBytes ≤ 2 ∧ u.maxVarintBytes ≤ 2 then tier2Formula c0
        else if t.maxVarintBytes ≤ 3 ∧ u.maxVarintBytes ≤ 3 then tier3Formula c0
        else tierGFormula c0
      let x1 :=
        if t.maxVarintBytes ≤ 2 ∧ u.maxVarintBytes ≤ 2 then tier2Formula c1
        else if t.maxVarintBytes ≤ 3 ∧ u.maxVarintBytes ≤ 3 then tier3Formula c1
        else tierGFormula c1
      some (castU32 t (x0 % 2 ^ 32), firstLen, castU32 u (x1 % 2 ^ 32), secondLen)
    else
      some (vectorToNum t (maskedFirst w firstLen), firstLen,
        vectorToNum u (maskedSecond w firstLen secondLen), secondLen)

/-- The low-half turbo extraction of `decode_two_wide_unsafe` on a
64-bit lane `c` (bytes 0-7 of a varint window). -/
def xLoFormula (c : Nat) : Nat :=
  (((c &&& 0x7f) ||| ((c &&& 0x7f00000000000000) >>> 7)) |||
      (((c &&& 0x007f000000000000) >>> 6) ||| ((c &&& 0x00007f0000000000) >>> 5))) |||
    ((((c &&& 0x0000007f00000000) >>> 4) ||| ((c &&& 0x000000007f000000) >>> 3)) |||
      (((c &&& 0x00000000007f0000) >>> 2) ||| ((c &&& 0x0000000000007f00) >>> 1)))

/-- The high-half turbo extraction of `decode_two_wide_unsafe` on a
64-bit lane `c` (bytes 8-15 of a varint window); the shifts are
performed by `_mm_slli_epi64`, which wraps modulo `2 ^ 64`. -/
def xHiFormula (c : Nat) : Nat :=
  (((c &&& 0x100) <<< 55) ||| ((c &&& 0x7f) <<< 56)) % 2 ^ 64

/-- Embeds `decode_two_wide_unsafe` (32-byte window).  The second
varint's window is rebuilt by a cross-lane shuffle that ORs, for each
destination byte `i`, the byte `i + first_len` taken from whichever
16-byte half contains it (out-of-range indices become zero).  The
reconstruction is always the turbo one.  The final
`_mm_extract_epi64(x, 2)` has only lanes 0 and 1 available; the
intrinsic masks the immediate to its valid range (`imm8 & 1`), so lane
0 is extracted for the second value as well. -/
def decodeTwoWideRaw (t u : Target) (w : List Nat) : Nat × Nat × Nat × Nat :=
  let bitmask := mmAux w 0 32
  let bmNot := 2 ^ 32 - 1 - bitmask
  let firstLen := ctzGo 32 bmNot + 1
  let secondLen := ctzGo 32 (bmNot / 2 ^ firstLen) + 1
  let first := (List.range 16).map fun i => if i < firstLen then byteAt w i else 0
  let secondShifted := (List.range 16).map fun i =>
    if i + firstLen ≤ 31 then byteAt w (i + firstLen) else 0
  let second := (List.range 16).map fun i =>
    if i < secondLen then byteAt secondShifted i else 0
  let x0 := xLoFormula (laneAux first 0 8) ||| xHiFormula (laneAux first 8 8)
  let x1 := xLoFormula (laneAux second 0 8) ||| xHiFormula (laneAux second 8 8)
  let _ := x1
  (castU64 t (x0 % 2 ^ 64), firstLen, castU64 u (x0 % 2 ^ 64), secondLen)

/-! ### Window and bit-scan lemmas -/

theorem byteAt_rangeMap (g : Nat → Nat) (i : Nat) :
    byteAt ((List.range 16).map g) i = if i < 16 then g i else 0 := by
  unfold byteAt
  rw [List.getD_eq_getElem?_getD, List.getElem?_map]
  by_cases h : i < 16
  · rw [List.getElem?_range h]
    simp [h]
  · rw [List.getElem?_eq_none (by simpa using Nat.le_of_not_lt h)]
    simp [h]

theorem length_rangeMap (g : Nat → Nat) : ((List.range 16).map g).length = 16 := by
  simp

theorem bit7_lt_two (b : Nat) : bit7 b < 2 := Nat.mod_lt _ (by omega)

theorem bit7_of_lt {b : Nat} (h : b < 128) : bit7 b = 0 := by
  unfold bit7
  omega

theorem bit7_of_ge {b : Nat} (h1 : 128 ≤ b) (h2 : b < 256) : bit7 b = 1 := by
  unfold bit7
  omega

theorem mmAux_lt_of_clear (w : List Nat) :
    ∀ f i p, (∀ j, p ≤ j → j < f → bit7 (byteAt w (i + j)) = 0) →
      mmAux w i f < 2 ^ p := by
  intro f
  induction f with
  | zero => intro i p _; exact Nat.pos_pow_of_pos p (by omega)
  | succ f ih =>
    intro i p hp
    unfold mmAux
    rcases Nat.eq_zero_or_pos p with rfl | hpos
    · have h0 : bit7 (byteAt w i) = 0 := by
        have := hp 0 (Nat.le_refl 0) (by omega)
        simpa using this
      have hm : mmAux w (i + 1) f < 2 ^ 0 := by
        apply ih
        intro j _ hj
        have h := hp (j + 1) (by omega) (by omega)
        have e : i + (j + 1) = i + 1 + j := by omega
        rwa [e] at h
      simp at hm
      simp [h0, hm]
    · obtain ⟨q, rfl⟩ : ∃ q, p = q + 1 := ⟨p - 1, by omega⟩
      have hm : mmAux w (i + 1) f < 2 ^ q := by
        apply ih
        intro j hj hjf
        have h := hp (j + 1) (by omega) (by omega)
        have e : i + (j + 1) = i + 1 + j := by omega
        rwa [e] at h
      have hb := bit7_lt_two (byteAt w i)
      have : 2 ^ (q + 1) = 2 * 2 ^ q := by ring
      omega

theorem mmAux_lt (w : List Nat) (f i : Nat) : mmAux w i f < 2 ^ f :=
  mmAux_lt_of_clear w f i f (by omega)

theorem contCount_eq (w : List Nat) :
    ∀ p i f, (∀ j, j < p → bit7 (byteAt w (i + j)) = 1) →
      bit7 (byteAt w (i + p)) = 0 → p < f → contCount w i f = p := by
  intro p
  induction p with
  | zero =>
    intro i f _ hclear hf
    obtain ⟨f', rfl⟩ : ∃ f', f = f' + 1 := ⟨f - 1, by omega⟩
    unfold contCount
    simp at hclear
    simp [hclear]
  | succ p ih =>
    intro i f hset hclear hf
    obtain ⟨f', rfl⟩ : ∃ f', f = f' + 1 := ⟨f - 1, by omega⟩
    unfold contCount
    have h0 : bit7 (byteAt w i) = 1 := by simpa using hset 0 (by omega)
    have htail : contCount w (i + 1) f' = p := by
      apply ih
      · intro j hj
        have h := hset (j + 1) (by omega)
        have e : i + (j + 1) = i + 1 + j := by omega
        rwa [e] at h
      · have e : i + (p + 1) = i + 1 + p := by omega
        rwa [e] at hclear
      · omega
    simp [h0, htail]

theorem ctzGo_mm (w : List Nat) :
    ∀ f g h i, f < g → g ≤ h →
      ctzGo h (2 ^ g - 1 - mmAux w i f) = contCount w i f := by
  intro f
  induction f with
  | zero =>
    intro g h i hfg hgh
    obtain ⟨h', rfl⟩ : ∃ h', h = h' + 1 := ⟨h - 1, by omega⟩
    have hg : 2 ≤ 2 ^ g := by
      calc 2 = 2 ^ 1 := by norm_num
      _ ≤ 2 ^ g := Nat.pow_le_pow_right (by omega) (by omega)
    have hpar : (2 ^ g - 1 - mmAux w i 0) % 2 = 1 := by
      have h2 : 2 ^ g % 2 = 0 := by
        have : (2 : Nat) ∣ 2 ^ g := dvd_pow_self 2 (by omega)
        omega
      unfold mmAux
      omega
    unfold ctzGo contCount
    simp [hpar]
  | succ f ih =>
    intro g h i hfg hgh
    obtain ⟨h', rfl⟩ : ∃ h', h = h' + 1 := ⟨h - 1, by omega⟩
    obtain ⟨g', rfl⟩ : ∃ g', g = g' + 1 := ⟨g - 1, by omega⟩
    have hm : mmAux w (i + 1) f < 2 ^ f := mmAux_lt w f (i + 1)
    have hmg : 2 ^ f ≤ 2 ^ g' := Nat.pow_le_pow_right (by omega) (by omega)
    have hgg : 2 ^ (g' + 1) = 2 * 2 ^ g' := by ring
    have hb := bit7_lt_two (byteAt w i)
    have hunf : mmAux w i (f + 1) = bit7 (byteAt w i) + 2 * mmAux w (i + 1) f := rfl
    have hb01 : bit7 (byteAt w i) = 0 ∨ bit7 (byteAt w i) = 1 := by omega
    rcases hb01 with h0 | h1
    · -- continuation bit clear: the inverted mask is odd, ctz is 0
      have hodd : (2 ^ (g' + 1) - 1 - mmAux w i (f + 1)) % 2 = 1 := by
        rw [hunf, h0]
        omega
      unfold ctzGo contCount
      simp [hodd, h0]
    · -- continuation bit set: halve and recurse
      have heven : (2 ^ (g' + 1) - 1 - mmAux w i (f + 1)) % 2 = 0 := by
        rw [hunf, h1]
        omega
      have hhalf : (2 ^ (g' + 1) - 1 - mmAux w i (f + 1)) / 2
          = 2 ^ g' - 1 - mmAux w (i + 1) f := by
        rw [hunf, h1]
        omega
      have hrec := ih g' h' (i + 1) (by omega) (by omega)
      unfold ctzGo contCount
      simp [heven, hhalf, h1, hrec]

theorem mm_div_two_pow (w : List Nat) :
    ∀ k f g i, k ≤ f → f < g →
      (2 ^ g - 1 - mmAux w i f) / 2 ^ k = 2 ^ (g - k) - 1 - mmAux w (i + k) (f - k) := by
  intro k
  induction k with
  | zero => intro f g i _ _; simp
  | succ k ih =>
    intro f g i hkf hfg
    obtain ⟨f', rfl⟩ : ∃ f', f = f' + 1 := ⟨f - 1, by omega⟩
    obtain ⟨g', rfl⟩ : ∃ g', g = g' + 1 := ⟨g - 1, by omega⟩
    have hm : mmAux w (i + 1) f' < 2 ^ f' := mmAux_lt w f' (i + 1)
    have hmg : 2 ^ f' ≤ 2 ^ g' := Nat.pow_le_pow_right (by omega) (by omega)
    have hgg : 2 ^ (g' + 1) = 2 * 2 ^ g' := by ring
    have hb := bit7_lt_two (byteAt w i)
    have hunf : mmAux w i (f' + 1) = bit7 (byteAt w i) + 2 * mmAux w (i + 1) f' := rfl
    have hhalf : (2 ^ (g' + 1) - 1 - mmAux w i (f' + 1)) / 2
        = 2 ^ g' - 1 - mmAux w (i + 1) f' := by
      rw [hunf]
      omega
    have hstep : (2 ^ (g' + 1) - 1 - mmAux w i (f' + 1)) / 2 ^ (k + 1)
        = ((2 ^ (g' + 1) - 1 - mmAux w i (f' + 1)) / 2) / 2 ^ k := by
      rw [Nat.div_div_eq_div_mul]
      ring_nf
    rw [hstep, hhalf, ih f' g' (i + 1) (by omega) (by omega)]
    have e1 : g' + 1 - (k + 1) = g' - k := by omega
    have e2 : f' + 1 - (k + 1) = f' - k := by omega
    have e3 : i + (k + 1) = i + 1 + k := by omega
    rw [e1, e2, e3]

/-! ### 7-bit group sum lemmas -/

theorem varVal_congr (w1 w2 : List Nat) (s1 s2 : Nat) :
    ∀ f, (∀ j, j < f → byteAt w1 (s1 + j) = byteAt w2 (s2 + j)) →
      varVal w1 s1 f = varVal w2 s2 f := by
  intro f
  induction f with
  | zero => intro _; rfl
  | succ f ih =>
    intro h
    unfold varVal
    rw [ih (fun j hj => h j (by omega)), h f (by omega)]

theorem varVal_stage1 (v : Nat) :
    ∀ f, f ≤ 16 → varVal (numToVectorStage1 v) 0 f = v % 2 ^ (7 * f) := by
  intro f
  induction f with
  | zero => intro _; simp [varVal, Nat.mod_one]
  | succ f ih =>
    intro hf
    unfold varVal
    rw [ih (by omega)]
    have hb : byteAt (numToVectorStage1 v) (0 + f) = v / 2 ^ (7 * f) % 128 := by
      unfold numToVectorStage1
      rw [byteAt_rangeMap]
      have hf16 : f < 16 := by omega
      simp [hf16]
    rw [hb]
    have hpow : 2 ^ (7 * (f + 1)) = 2 ^ (7 * f) * 2 ^ 7 := by
      ring
    rw [hpow, Nat.mod_mul]
    have h128 : (2 : Nat) ^ 7 = 128 := by norm_num
    rw [h128, Nat.mod_mod]
    ring

/-! ### Encoder characterization -/

theorem lor_128 : ∀ b, b < 128 → b ||| 128 = b + 128 := by decide

theorem stage1_byte (v i : Nat) :
    byteAt (numToVectorStage1 v) i = if i < 16 then v / 2 ^ (7 * i) % 128 else 0 := by
  unfold numToVectorStage1
  rw [byteAt_rangeMap]

theorem stage1_byte_lt (v i : Nat) : byteAt (numToVectorStage1 v) i < 128 := by
  rw [stage1_byte]
  split
  · exact Nat.mod_lt _ (by omega)
  · omega

theorem bitLenGo_zero : ∀ f, bitLenGo f 0 = 0 := by
  intro f
  cases f <;> simp [bitLenGo]

theorem bitLenGo_eq : ∀ p f n, 2 ^ p ≤ n → n < 2 ^ (p + 1) → p < f → bitLenGo f n = p + 1 := by
  intro p
  induction p with
  | zero =>
    intro f n h1 h2 hf
    obtain ⟨f', rfl⟩ : ∃ f', f = f' + 1 := ⟨f - 1, by omega⟩
    have hn : n = 1 := by
      simp at h1
      norm_num at h2
      omega
    subst hn
    unfold bitLenGo
    simp [bitLenGo_zero]
  | succ p ih =>
    intro f n h1 h2 hf
    obtain ⟨f', rfl⟩ : ∃ f', f = f' + 1 := ⟨f - 1, by omega⟩
    have hp1 : (2 : Nat) ^ (p + 1) = 2 * 2 ^ p := by ring
    have hp2 : (2 : Nat) ^ (p + 2) = 2 * 2 ^ (p + 1) := by ring
    have hn : n ≠ 0 := by
      have : 0 < 2 ^ (p + 1) := Nat.pos_pow_of_pos _ (by omega)
      omega
    have hrec : bitLenGo f' (n / 2) = p + 1 := by
      apply ih
      · omega
      · omega
      · omega
    unfold bitLenGo
    simp [hn, hrec]

theorem two_pow_le_mmAux (w : List Nat) :
    ∀ j f i, j < f → bit7 (byteAt w (i + j)) = 1 → 2 ^ j ≤ mmAux w i f := by
  intro j
  induction j with
  | zero =>
    intro f i hf h
    obtain ⟨f', rfl⟩ : ∃ f', f = f' + 1 := ⟨f - 1, by omega⟩
    unfold mmAux
    simp at h
    omega
  | succ j ih =>
    intro f i hf h
    obtain ⟨f', rfl⟩ : ∃ f', f = f' + 1 := ⟨f - 1, by omega⟩
    have e : i + (j + 1) = i + 1 + j := by omega
    rw [e] at h
    have := ih f' (i + 1) (by omega) h
    unfold mmAux
    have hp : (2 : Nat) ^ (j + 1) = 2 * 2 ^ j := by ring
    omega

theorem exists_byte (v i : Nat) (h : i < 16) :
    byteAt (existsList v) i =
      if 0 < byteAt (numToVectorStage1 v) i ∨ i = 0 then 255 else 0 := by
  unfold existsList
  rw [byteAt_rangeMap]
  have h255 : (255 : Nat) ||| 255 = 255 := by decide
  by_cases h2 : i = 0
  · subst h2
    by_cases h1 : 0 < byteAt (numToVectorStage1 v) 0 <;> simp [h1, h255]
  · by_cases h1 : 0 < byteAt (numToVectorStage1 v) i <;> simp [h, h1, h2]

theorem encLen_zero : encLen 0 = 1 := by decide

theorem encLen_eq (v : Nat) (hv : v < 2 ^ 64) :
    encLen v = if v = 0 then 1 else Nat.log2 v / 7 + 1 := by
  by_cases h0 : v = 0
  · subst h0
    simp [encLen_zero]
  · simp only [h0, if_false]
    set p := Nat.log2 v / 7 with hp
    have hlog : Nat.log2 v < 64 := by
      rw [Nat.log2_lt h0]
      exact hv
    have hp9 : p ≤ 9 := by
      have := Nat.div_mul_le_self (Nat.log2 v) 7
      omega
    have h7p : 7 * p ≤ Nat.log2 v := by
      have := Nat.div_mul_le_self (Nat.log2 v) 7
      omega
    have hlow : 2 ^ (7 * p) ≤ v :=
      le_trans (Nat.pow_le_pow_right (by omega) h7p) (Nat.log2_self_le h0)
    have hhigh : v < 2 ^ (7 * p + 7) := by
      have h1 : Nat.log2 v + 1 ≤ 7 * p + 7 := by
        have := Nat.div_add_mod (Nat.log2 v) 7
        have := Nat.mod_lt (Nat.log2 v) (y := 7) (by omega)
        omega
      exact lt_of_lt_of_le Nat.lt_log2_self (Nat.pow_le_pow_right (by omega) h1)
    -- the quotient at position p is in [1, 128)
    have hq1 : 1 ≤ v / 2 ^ (7 * p) := by
      apply Nat.one_le_div_iff (Nat.pos_pow_of_pos _ (by omega)) |>.mpr hlow
    have hq2 : v / 2 ^ (7 * p) < 128 := by
      rw [Nat.div_lt_iff_lt_mul (Nat.pos_pow_of_pos _ (by omega))]
      have he : (2 : Nat) ^ (7 * p + 7) = 128 * 2 ^ (7 * p) := by ring
      omega
    -- bytes strictly after p vanish
    have hzero : ∀ j, p < j → v / 2 ^ (7 * j) = 0 := by
      intro j hj
      apply Nat.div_eq_of_lt
      calc v < 2 ^ (7 * p + 7) := hhigh
      _ ≤ 2 ^ (7 * j) := Nat.pow_le_pow_right (by omega) (by omega)
    -- bit p of the exists mask is set
    have hbit_p : bit7 (byteAt (existsList v) (0 + p)) = 1 := by
      rw [Nat.zero_add, exists_byte v p (by omega)]
      have hcond : 0 < byteAt (numToVectorStage1 v) p ∨ p = 0 := by
        left
        rw [stage1_byte]
        have hgt : 0 < v / 2 ^ (7 * p) % 128 := by
          rw [Nat.mod_eq_of_lt hq2]
          omega
        simpa [show p < 16 by omega] using hgt
      rw [if_pos hcond]
      decide
    -- bits strictly after p of the exists mask are clear
    have hbit_clear : ∀ j, p + 1 ≤ j → j < 16 → bit7 (byteAt (existsList v) (0 + j)) = 0 := by
      intro j hj hj16
      rw [Nat.zero_add, exists_byte v j hj16]
      have hcond : ¬(0 < byteAt (numToVectorStage1 v) j ∨ j = 0) := by
        push_neg
        refine ⟨?_, by omega⟩
        rw [stage1_byte]
        simp [hzero j (by omega), hj16]
      rw [if_neg hcond]
      decide
    have hlo : 2 ^ p ≤ mmAux (existsList v) 0 16 :=
      two_pow_le_mmAux (existsList v) p 16 0 (by omega) hbit_p
    have hhi : mmAux (existsList v) 0 16 < 2 ^ (p + 1) :=
      mmAux_lt_of_clear (existsList v) 16 0 (p + 1) hbit_clear
    exact bitLenGo_eq p 32 _ hlo hhi (by omega)

theorem encLen_le_ten (v : Nat) (hv : v < 2 ^ 64) : encLen v ≤ 10 := by
  rw [encLen_eq v hv]
  split
  · omega
  · have h0 : v ≠ 0 := by assumption
    have hlog : Nat.log2 v < 64 := by
      rw [Nat.log2_lt h0]
      exact hv
    omega

theorem one_le_encLen (v : Nat) (hv : v < 2 ^ 64) : 1 ≤ encLen v := by
  rw [encLen_eq v hv]
  split <;> omega

theorem lt_two_pow_encLen (v : Nat) (hv : v < 2 ^ 64) : v < 2 ^ (7 * encLen v) := by
  rw [encLen_eq v hv]
  by_cases h0 : v = 0
  · subst h0
    simp
  · simp only [h0, if_false]
    have h1 : Nat.log2 v + 1 ≤ 7 * (Nat.log2 v / 7 + 1) := by
      have := Nat.div_add_mod (Nat.log2 v) 7
      have := Nat.mod_lt (Nat.log2 v) (y := 7) (by omega)
      omega
    exact lt_of_lt_of_le Nat.lt_log2_self (Nat.pow_le_pow_right (by omega) h1)

theorem encodeRaw_fst (v : Nat) : (encodeRaw v).1 = encList v := by
  unfold encodeRaw
  simp

theorem encodeRaw_snd (v : Nat) : (encodeRaw v).2 = encLen v := by
  unfold encodeRaw
  simp

theorem encode_fst (v : Nat) : (encode v).1 = encList v := by
  unfold encode
  exact encodeRaw_fst v

theorem encode_snd (v : Nat) : (encode v).2 = encLen v := by
  unfold encode
  exact encodeRaw_snd v

theorem encode_byte (v : Nat) (i : Nat) :
    byteAt (encList v) i =
      if i < 16 then v / 2 ^ (7 * i) % 128 + (if i + 1 < encLen v then 128 else 0)
      else 0 := by
  unfold encList
  rw [byteAt_rangeMap]
  by_cases h16 : i < 16
  · simp only [h16, if_true]
    rw [stage1_byte]
    simp only [h16, if_true]
    by_cases hc : i + 1 < encLen v
    · simp only [hc, if_true]
      exact lor_128 _ (Nat.mod_lt _ (by omega))
    · simp [hc]
  · simp [h16]

theorem encode_byte_of_ge (v i : Nat) (hv : v < 2 ^ 64) (hi : encLen v ≤ i) :
    byteAt (encList v) i = 0 := by
  rw [encode_byte]
  by_cases h16 : i < 16
  · have hz : v / 2 ^ (7 * i) = 0 := by
      apply Nat.div_eq_of_lt
      calc v < 2 ^ (7 * encLen v) := lt_two_pow_encLen v hv
      _ ≤ 2 ^ (7 * i) := Nat.pow_le_pow_right (by omega) (by omega)
    simp [h16, hz, show ¬(i + 1 < encLen v) by omega]
  · simp [h16]

/-! ### Decoder characterization and the round trip -/

theorem varVal_mod_congr (w1 w2 : List Nat) (s1 s2 : Nat) :
    ∀ f, (∀ j, j < f → byteAt w1 (s1 + j) % 128 = byteAt w2 (s2 + j) % 128) →
      varVal w1 s1 f = varVal w2 s2 f := by
  intro f
  induction f with
  | zero => intro _; rfl
  | succ f ih =>
    intro h
    unfold varVal
    rw [ih (fun j hj => h j (by omega)), h f (by omega)]

theorem getElem?_of_lt_length (l : List Nat) (i : Nat) (h : i < l.length) :
    l[i]? = some (byteAt l i) := by
  unfold byteAt
  rw [List.getD_eq_getElem?_getD]
  cases hx : l[i]? with
  | none =>
    rw [List.getElem?_eq_none_iff] at hx
    omega
  | some a => simp

theorem overflowCheck_big (t : Target) (bytes : List Nat) (a b : Nat)
    (h : t.maxVarintBytes < b) : overflowCheck t bytes (a, b) = .overflow := by
  unfold overflowCheck
  simp [h]

theorem overflowCheck_small (t : Target) (bytes : List Nat) (a b : Nat)
    (h1 : ¬t.maxVarintBytes < b) (h2 : b ≠ t.maxVarintBytes) :
    overflowCheck t bytes (a, b) = .ok a b := by
  unfold overflowCheck
  simp [h1, h2]

theorem overflowCheck_last (t : Target) (bytes : List Nat) (a b c : Nat)
    (h1 : ¬t.maxVarintBytes < b) (h2 : b = t.maxVarintBytes)
    (hc : bytes[t.maxVarintBytes - 1]? = some c) :
    overflowCheck t bytes (a, b) = if t.maxLastVarintByte < c then .overflow else .ok a b := by
  unfold overflowCheck
  simp [h1, h2, hc]

theorem overflowCheck_oob (t : Target) (bytes : List Nat) (a b : Nat)
    (h1 : ¬t.maxVarintBytes < b) (h2 : b = t.maxVarintBytes)
    (hc : bytes[t.maxVarintBytes - 1]? = none) :
    overflowCheck t bytes (a, b) = .panicked := by
  unfold overflowCheck
  simp [h1, h2, hc]

theorem decodeRaw_eq (t : Target) (w : List Nat) :
    decodeRaw t w =
      (vectorToNum t ((List.range 16).map fun i => if i < varintLen w then byteAt w i else 0),
        varintLen w) := by
  have hc : ctzGo 32 (2 ^ 32 - 1 - mmAux w 0 16) = contCount w 0 16 :=
    ctzGo_mm w 16 32 32 0 (by omega) (by omega)
  show (vectorToNum t ((List.range 16).map fun i =>
      if i < ctzGo 32 (2 ^ 32 - 1 - mmAux w 0 16) + 1 then byteAt w i else 0),
    ctzGo 32 (2 ^ 32 - 1 - mmAux w 0 16) + 1) = _
  rw [hc]
  rfl

theorem encode_contCount (v : Nat) (hv : v < 2 ^ 64) :
    contCount (encList v) 0 16 = encLen v - 1 := by
  have hten := encLen_le_ten v hv
  have hone := one_le_encLen v hv
  apply contCount_eq _ (encLen v - 1) 0 16
  · intro j hj
    rw [Nat.zero_add, encode_byte]
    have hj16 : j < 16 := by omega
    have hcont : j + 1 < encLen v := by omega
    simp only [hj16, if_true, hcont]
    have hs : v / 2 ^ (7 * j) % 128 < 128 := Nat.mod_lt _ (by omega)
    apply bit7_of_ge <;> omega
  · rw [Nat.zero_add, encode_byte]
    have h16 : encLen v - 1 < 16 := by omega
    have hnc : ¬(encLen v - 1 + 1 < encLen v) := by omega
    simp only [h16, if_true, hnc, if_false]
    have hs : v / 2 ^ (7 * (encLen v - 1)) % 128 < 128 := Nat.mod_lt _ (by omega)
    apply bit7_of_lt
    omega
  · omega

theorem encode_varintLen (v : Nat) (hv : v < 2 ^ 64) :
    varintLen (encList v) = encLen v := by
  unfold varintLen
  rw [encode_contCount v hv]
  have := one_le_encLen v hv
  omega

theorem decodeRaw_encodeRaw (t : Target) (v : Nat) (hv : v < 2 ^ 64) :
    decodeRaw t (encList v) = (v % 2 ^ t.bits, encLen v) := by
  rw [decodeRaw_eq, encode_varintLen v hv]
  have hval : varVal ((List.range 16).map fun i =>
      if i < encLen v then byteAt (encList v) i else 0) 0 16
      = varVal (numToVectorStage1 v) 0 16 := by
    apply varVal_mod_congr
    intro j hj
    rw [byteAt_rangeMap, stage1_byte]
    simp only [Nat.zero_add]
    simp only [hj, if_true]
    by_cases hjl : j < encLen v
    · simp only [hjl, if_true]
      rw [encode_byte]
      simp only [hj, if_true]
      by_cases hc : j + 1 < encLen v
      · simp only [hc, if_true]
        rw [Nat.add_mod_right, Nat.mod_mod]
      · simp only [hc, if_false]
        rw [Nat.add_zero, Nat.mod_mod]
    · simp only [hjl, if_false]
      have hz : v / 2 ^ (7 * j) = 0 := by
        apply Nat.div_eq_of_lt
        calc v < 2 ^ (7 * encLen v) := lt_two_pow_encLen v hv
        _ ≤ 2 ^ (7 * j) := Nat.pow_le_pow_right (by omega) (by omega)
      rw [hz]
  unfold vectorToNum
  rw [hval, varVal_stage1 v 16 (Nat.le_refl _)]
  have hm : v % 2 ^ (7 * 16) = v := by
    apply Nat.mod_eq_of_lt
    calc v < 2 ^ 64 := hv
    _ ≤ 2 ^ (7 * 16) := Nat.pow_le_pow_right (by omega) (by omega)
  rw [hm]

theorem encList_length (v : Nat) : (encList v).length = 16 := by
  unfold encList
  simp

theorem lastByte_bound (bits mx v : Nat) (hmx1 : 1 ≤ mx)
    (h7m : 7 * (mx - 1) < bits) (hv : v < 2 ^ bits) :
    ¬(2 ^ (bits - 7 * (mx - 1)) - 1 < v / 2 ^ (7 * (mx - 1)) % 128) := by
  obtain ⟨e, he⟩ : ∃ e, bits = 7 * (mx - 1) + e := ⟨bits - 7 * (mx - 1), by omega⟩
  subst he
  have hsub : 7 * (mx - 1) + e - 7 * (mx - 1) = e := by omega
  rw [hsub]
  have hv2 : v < 2 ^ (7 * (mx - 1)) * 2 ^ e := by
    rw [← pow_add]
    exact hv
  have hq : v / 2 ^ (7 * (mx - 1)) < 2 ^ e := by
    rw [Nat.div_lt_iff_lt_mul (Nat.pos_pow_of_pos _ (by omega))]
    have hc : (2 : Nat) ^ e * 2 ^ (7 * (mx - 1)) = 2 ^ (7 * (mx - 1)) * 2 ^ e := Nat.mul_comm _ _
    omega
  have hmle : v / 2 ^ (7 * (mx - 1)) % 128 ≤ v / 2 ^ (7 * (mx - 1)) := Nat.mod_le _ _
  have h1 : 1 ≤ 2 ^ e := Nat.one_le_two_pow
  omega

/-- The round trip through the validated decoder, for any target whose
descriptor constants are exact for its bit width. -/
theorem decode_encodeRaw (t : Target) (hb : 0 < t.bits) (hb64 : t.bits ≤ 64)
    (hmax : t.maxVarintBytes = (t.bits + 6) / 7)
    (hlast : t.maxLastVarintByte = 2 ^ (t.bits - 7 * (t.maxVarintBytes - 1)) - 1)
    (v : Nat) (hv : v < 2 ^ t.bits) :
    decode t (encList v) = .ok v (encLen v) := by
  have hv64 : v < 2 ^ 64 := by
    have hple : (2 : Nat) ^ t.bits ≤ 2 ^ 64 := Nat.pow_le_pow_right (by omega) hb64
    omega
  have hten := encLen_le_ten v hv64
  have hone := one_le_encLen v hv64
  have hmod : v % 2 ^ t.bits = v := Nat.mod_eq_of_lt hv
  -- max_varint_bytes is within the buffer and at least the encoded length
  have hmax10 : t.maxVarintBytes ≤ 10 := by
    rw [hmax]
    omega
  have hmax1 : 1 ≤ t.maxVarintBytes := by
    rw [hmax]
    omega
  have hLmax : encLen v ≤ t.maxVarintBytes := by
    rw [encLen_eq v hv64]
    by_cases h0 : v = 0
    · simp only [h0, if_true]
      omega
    · simp only [h0, if_false]
      have hlog : Nat.log2 v < t.bits := by
        rw [Nat.log2_lt h0]
        exact hv
      rw [hmax]
      omega
  unfold decode
  rw [encList_length]
  simp only [show (16 : Nat) ≤ 16 by omega, if_true]
  rw [decodeRaw_encodeRaw t v hv64, hmod]
  by_cases hLeq : encLen v = t.maxVarintBytes
  · rw [overflowCheck_last t (encList v) v (encLen v)
      (byteAt (encList v) (t.maxVarintBytes - 1)) (by omega) hLeq
      (getElem?_of_lt_length _ _ (by rw [encList_length]; omega))]
    have hble : ¬t.maxLastVarintByte < byteAt (encList v) (t.maxVarintBytes - 1) := by
      rw [encode_byte]
      have h16 : t.maxVarintBytes - 1 < 16 := by omega
      have hnc : ¬(t.maxVarintBytes - 1 + 1 < encLen v) := by omega
      simp only [h16, if_true, hnc, if_false, Nat.add_zero]
      rw [hlast]
      exact lastByte_bound t.bits t.maxVarintBytes v (by omega) (by rw [hmax]; omega) hv
    rw [if_neg hble]
  · rw [overflowCheck_small t (encList v) v (encLen v) (by omega) hLeq]

/-- **C1.** For every representable value `v` of every supported
unsigned width, encoding `v` and then decoding the returned 16-byte
buffer succeeds and returns exactly `(v, encode(v).length)`. -/
theorem claim1_roundtrip (t : Target) (ht : t ∈ supportedTargets) (v : Nat)
    (hv : v < 2 ^ t.bits) :
    decode t (encode v).1 = .ok v (encode v).2 := by
  rw [encode_fst, encode_snd]
  simp only [supportedTargets, List.mem_cons, List.not_mem_nil, or_false] at ht
  rcases ht with rfl | rfl | rfl | rfl
  · exact decode_encodeRaw u8 (by decide) (by decide) (by decide) (by decide) v hv
  · exact decode_encodeRaw u16 (by decide) (by decide) (by decide) (by decide) v hv
  · exact decode_encodeRaw u32 (by decide) (by decide) (by decide) (by decide) v hv
  · exact decode_encodeRaw u64 (by decide) (by decide) (by decide) (by decide) v hv

/-- Witness for C1 at the concrete input `1337 : u32`. -/
theorem claim1_roundtrip_witness :
    decode u32 (encode 1337).1 = .ok 1337 (encode 1337).2 :=
  claim1_roundtrip u32 (by decide) 1337 (by decide)

/-- **C2.** The encoder always produces the shortest possible encoding:
`encode(v).length` is `ceil(bit_length(v) / 7)` (`Nat.log2 v + 1` being
the bit length of `v > 0`), and `0` encodes in one byte. -/
theorem claim2_minimality (t : Target) (ht : t ∈ supportedTargets) (v : Nat)
    (hv : v < 2 ^ t.bits) :
    (encode v).2 = if v = 0 then 1 else (Nat.log2 v + 1 + 6) / 7 := by
  have hb64 : t.bits ≤ 64 := by
    simp only [supportedTargets, List.mem_cons, List.not_mem_nil, or_false] at ht
    rcases ht with rfl | rfl | rfl | rfl <;> decide
  have hv64 : v < 2 ^ 64 := by
    have hple : (2 : Nat) ^ t.bits ≤ 2 ^ 64 := Nat.pow_le_pow_right (by omega) hb64
    omega
  rw [encode_snd, encLen_eq v hv64]
  by_cases h0 : v = 0
  · simp [h0]
  · simp only [h0, if_false]
    have he : Nat.log2 v + 1 + 6 = Nat.log2 v + 7 := by omega
    rw [he, Nat.add_div_right _ (by omega)]

/-- Witness for C2 at the concrete input `1337 : u32` (length 2). -/
theorem claim2_minimality_witness :
    (encode 1337).2 = if (1337 : Nat) = 0 then 1 else (Nat.log2 1337 + 1 + 6) / 7 :=
  claim2_minimality u32 (by decide) 1337 (by decide)

/-! ### Safe-decode error behavior and window shape -/

theorem mem_supported {t : Target} (ht : t ∈ supportedTargets) :
    t = u8 ∨ t = u16 ∨ t = u32 ∨ t = u64 := by
  simpa [supportedTargets, List.mem_cons, List.not_mem_nil, or_false] using ht

theorem supported_bits {t : Target} (ht : t ∈ supportedTargets) :
    0 < t.bits ∧ t.bits ≤ 64 ∧ 2 ≤ t.maxVarintBytes ∧ t.maxVarintBytes ≤ 10 := by
  rcases mem_supported ht with rfl | rfl | rfl | rfl <;> refine ⟨?_, ?_, ?_, ?_⟩ <;> decide

/-- **C4 evaluation.** Decoding the one-byte slice `[0x80]` as `u8`:
the raw decoder reports length 2, which equals `u8::MAX_VARINT_BYTES`,
so `decode` indexes `bytes[1]` on the one-byte input slice and panics
with an index-out-of-bounds, instead of returning a `Result`. -/
theorem claim4_short_input_panics : decode u8 [128] = DecodeResult.panicked := by decide

/-- **C10.** In `(buf, len) = encode v`: every byte at position `len`
or later is zero, and the continuation bit (bit 7) is set on exactly
the byte positions strictly before `len - 1`, in particular clear on
the final byte of the varint. -/
theorem claim10_buffer_shape (t : Target) (ht : t ∈ supportedTargets) (v : Nat)
    (hv : v < 2 ^ t.bits) :
    (∀ i, (encode v).2 ≤ i → byteAt (encode v).1 i = 0) ∧
    (∀ i, bit7 (byteAt (encode v).1 i) = 1 ↔ i + 1 < (encode v).2) := by
  obtain ⟨hb, hb64, hmax2, hmax10⟩ := supported_bits ht
  have hv64 : v < 2 ^ 64 := by
    have hple : (2 : Nat) ^ t.bits ≤ 2 ^ 64 := Nat.pow_le_pow_right (by omega) hb64
    omega
  have hten := encLen_le_ten v hv64
  rw [encode_fst, encode_snd]
  constructor
  · intro i hi
    exact encode_byte_of_ge v i hv64 hi
  · intro i
    rw [encode_byte]
    by_cases h16 : i < 16
    · simp only [h16, if_true]
      have hs : v / 2 ^ (7 * i) % 128 < 128 := Nat.mod_lt _ (by omega)
      by_cases hc : i + 1 < encLen v
      · simp only [hc, if_true, iff_true]
        exact bit7_of_ge (by omega) (by omega)
      · simp only [hc, if_false, Nat.add_zero]
        rw [bit7_of_lt hs]
        simp [hc]
    · simp only [h16, if_false]
      have hz : bit7 0 = 0 := by decide
      rw [hz]
      constructor
      · intro h
        omega
      · intro h
        omega

/-- Witness for C10 at the concrete input `300 : u16`
(`encode 300 = ([0xAC, 0x02, 0, …], 2)`). -/
theorem claim10_buffer_shape_witness :
    (∀ i, (encode 300).2 ≤ i → byteAt (encode 300).1 i = 0) ∧
    (∀ i, bit7 (byteAt (encode 300).1 i) = 1 ↔ i + 1 < (encode 300).2) :=
  claim10_buffer_shape u16 (by decide) 300 (by decide)

/-- **C9.** Bytes after the end of the varint never influence the raw
decoder: two 16-byte windows that agree on every byte up to and
including the first byte whose continuation bit is clear decode to the
identical `(value, length)` pair. -/
theorem claim9_tail_irrelevant (t : Target) (w1 w2 : List Nat) (p : Nat)
    (hp : p < 16)
    (hset : ∀ i, i < p → bit7 (byteAt w1 i) = 1)
    (hclear : bit7 (byteAt w1 p) = 0)
    (hagree : ∀ i, i ≤ p → byteAt w1 i = byteAt w2 i) :
    decodeRaw t w1 = decodeRaw t w2 := by
  have hc1 : contCount w1 0 16 = p := by
    apply contCount_eq w1 p 0 16
    · intro j hj
      simpa using hset j hj
    · simpa using hclear
    · omega
  have hc2 : contCount w2 0 16 = p := by
    apply contCount_eq w2 p 0 16
    · intro j hj
      rw [Nat.zero_add, ← hagree j (by omega)]
      exact hset j hj
    · rw [Nat.zero_add, ← hagree p (Nat.le_refl p)]
      exact hclear
    · omega
  have hL1 : varintLen w1 = p + 1 := by
    unfold varintLen
    rw [hc1]
  have hL2 : varintLen w2 = p + 1 := by
    unfold varintLen
    rw [hc2]
  rw [decodeRaw_eq t w1, decodeRaw_eq t w2, hL1, hL2]
  have hM : ((List.range 16).map fun i => if i < p + 1 then byteAt w1 i else 0)
      = (List.range 16).map fun i => if i < p + 1 then byteAt w2 i else 0 := by
    apply List.map_congr_left
    intro i hi
    by_cases hip : i < p + 1
    · simp only [hip, if_true]
      exact hagree i (by omega)
    · simp only [hip, if_false]
  rw [hM]

/-- Witness for C9: the windows `[5]` and `[5, 99]` agree on the single
varint byte and decode identically. -/
theorem claim9_tail_irrelevant_witness :
    decodeRaw u32 [5] = decodeRaw u32 [5, 99] :=
  claim9_tail_irrelevant u32 [5] [5, 99] 0 (by decide) (by decide) (by decide) (by decide)

theorem overflowCheck_spec (t : Target) (bytes : List Nat) (a b : Nat)
    (hidx : t.maxVarintBytes - 1 < bytes.length) :
    (overflowCheck t bytes (a, b) = .overflow ↔
      (t.maxVarintBytes < b ∨
        (b = t.maxVarintBytes ∧ t.maxLastVarintByte < byteAt bytes (t.maxVarintBytes - 1)))) ∧
    (¬(t.maxVarintBytes < b ∨
        (b = t.maxVarintBytes ∧ t.maxLastVarintByte < byteAt bytes (t.maxVarintBytes - 1))) →
      overflowCheck t bytes (a, b) = .ok a b) := by
  have hsome := getElem?_of_lt_length bytes _ hidx
  by_cases h1 : t.maxVarintBytes < b
  · rw [overflowCheck_big t bytes a b h1]
    constructor
    · simp [h1]
    · intro hno
      exact absurd (Or.inl h1) hno
  · by_cases h2 : b = t.maxVarintBytes
    · rw [overflowCheck_last t bytes a b _ h1 h2 hsome]
      by_cases h3 : t.maxLastVarintByte < byteAt bytes (t.maxVarintBytes - 1)
      · rw [if_pos h3]
        constructor
        · simp [h1, h2, h3]
        · intro hno
          exact absurd (Or.inr ⟨h2, h3⟩) hno
      · rw [if_neg h3]
        constructor
        · simp [h1, h2, h3]
        · intro _
          rfl
    · rw [overflowCheck_small t bytes a b h1 h2]
      constructor
      · simp [h1, h2]
      · intro _
        rfl

/-- **C3 counterexample.** On the two-byte `u16` input `[0x80, 0x80]`
the computed varint length is 3 (= `u16::MAX_VARINT_BYTES`) and the
byte at the final varint position of the padded buffer is 0, so the
claim requires `Ok`; the code instead panics indexing `bytes[2]` on the
two-byte slice. -/
theorem claim3_counterexample : decode u16 [128, 128] = DecodeResult.panicked := by decide

/-- **C3 (amended).** For every input slice holding at least
`max_varint_bytes` bytes, `decode` returns `Overflow` exactly when the
varint length computed from the continuation bits of the effective
16-byte window exceeds `max_varint_bytes`, or equals it while the byte
at the final varint position exceeds `max_last_varint_byte`; otherwise
it returns `Ok` with the reassembled value and that length.  (The
original claim, over every non-empty slice, fails: when the computed
length equals `max_varint_bytes` but the slice is shorter, the overflow
check indexes past the end of the slice and panics.) -/
theorem claim3_overflow_iff (t : Target) (ht : t ∈ supportedTargets) (bytes : List Nat)
    (hlen : t.maxVarintBytes ≤ bytes.length) :
    (decode t bytes = .overflow ↔
      (t.maxVarintBytes < varintLen (effectiveWindow bytes) ∨
        (varintLen (effectiveWindow bytes) = t.maxVarintBytes ∧
          t.maxLastVarintByte < byteAt bytes (t.maxVarintBytes - 1)))) ∧
    (¬(t.maxVarintBytes < varintLen (effectiveWindow bytes) ∨
        (varintLen (effectiveWindow bytes) = t.maxVarintBytes ∧
          t.maxLastVarintByte < byteAt bytes (t.maxVarintBytes - 1))) →
      decode t bytes = .ok
        (vectorToNum t ((List.range 16).map fun i =>
          if i < varintLen (effectiveWindow bytes) then byteAt (effectiveWindow bytes) i else 0))
        (varintLen (effectiveWindow bytes))) := by
  obtain ⟨hb, hb64, hmax2, hmax10⟩ := supported_bits ht
  have hidx : t.maxVarintBytes - 1 < bytes.length := by omega
  have hne : bytes ≠ [] := by
    intro h
    subst h
    simp at hlen
    omega
  unfold decode
  by_cases h16 : 16 ≤ bytes.length
  · rw [if_pos h16]
    have hW : effectiveWindow bytes = bytes := by
      unfold effectiveWindow
      rw [if_pos h16]
    rw [hW, decodeRaw_eq]
    exact overflowCheck_spec t bytes _ _ hidx
  · rw [if_neg h16, if_pos hne]
    have hW : effectiveWindow bytes
        = bytes.take (min 10 bytes.length) ++ List.replicate (16 - min 10 bytes.length) 0 := by
      unfold effectiveWindow
      rw [if_neg h16]
    rw [hW, decodeRaw_eq]
    exact overflowCheck_spec t bytes _ _ hidx

/-- Witness for C3: `decode::<u8>` of `[0xB9, 0x0A]` (the encoding of
1337, whose length 2 equals `u8::MAX_VARINT_BYTES` with final byte
10 > 1) overflows. -/
theorem claim3_overflow_iff_witness : decode u8 [185, 10] = DecodeResult.overflow := by
  have h := claim3_overflow_iff u8 (by decide) [185, 10] (by decide)
  exact h.1.mpr (by decide)

/-! ### The zigzag transform -/

theorem xor_all_ones : ∀ w x, x < 2 ^ w → x ^^^ (2 ^ w - 1) = 2 ^ w - 1 - x := by
  intro w
  induction w with
  | zero =>
    intro x hx
    have hx0 : x = 0 := by omega
    subst hx0
    simp
  | succ w ih =>
    intro x hx
    have hpow : (2 : Nat) ^ (w + 1) = 2 * 2 ^ w := by ring
    have h1 : 1 ≤ (2 : Nat) ^ w := Nat.one_le_two_pow
    have hdiv : x / 2 < 2 ^ w := by omega
    have hxd : x = Nat.bit (decide (x % 2 = 1)) (x / 2) := by
      rw [Nat.bit_val]
      rcases Nat.mod_two_eq_zero_or_one x with h | h <;> simp [h] <;> omega
    have hmask : 2 ^ (w + 1) - 1 = Nat.bit true (2 ^ w - 1) := by
      rw [Nat.bit_val]
      simp
      omega
    conv_lhs => rw [hxd, hmask]
    rw [Nat.xor_bit, ih (x / 2) hdiv]
    have hx2 := Nat.div_add_mod x 2
    rcases Nat.mod_two_eq_zero_or_one x with h | h <;>
      simp [h, Nat.bit_val] <;> omega

theorem neg_emod_two_pow (a w : Nat) (h1 : 1 ≤ a) (h2 : a ≤ 2 ^ w) :
    (-(a : Int)) % (2 ^ w : Int) = ((2 ^ w - a : Nat) : Int) := by
  have hc : ((2 ^ w - a : Nat) : Int) = (2 ^ w : Int) - (a : Int) := by
    rw [Nat.cast_sub h2]
    push_cast
    ring
  have he : (-(a : Int)) = ((2 ^ w - a : Nat) : Int) + (-1) * (2 ^ w : Int) := by
    rw [hc]
    ring
  rw [he, Int.add_mul_emod_self]
  apply Int.emod_eq_of_lt
  · rw [hc]
    have : (a : Int) ≤ (2 ^ w : Int) := by exact_mod_cast h2
    omega
  · rw [hc]
    have : (1 : Int) ≤ (a : Int) := by exact_mod_cast h1
    omega

theorem natCast_emod_two_pow (a w : Nat) (h : a < 2 ^ w) :
    ((a : Int)) % (2 ^ w : Int) = (a : Int) := by
  apply Int.emod_eq_of_lt
  · exact Int.ofNat_nonneg a
  · exact_mod_cast h

/-- The zigzag code of a non-negative `w`-bit value `m` is `2 * m`. -/
theorem zigzag_of_nonneg (w m : Nat) (hw : 0 < w) (hm : m < 2 ^ (w - 1)) :
    zigzag w (m : Int) = 2 * m := by
  obtain ⟨w1, rfl⟩ : ∃ w1, w = w1 + 1 := ⟨w - 1, by omega⟩
  have hw1 : w1 + 1 - 1 = w1 := by omega
  rw [hw1] at hm
  have hpow : (2 : Nat) ^ (w1 + 1) = 2 * 2 ^ w1 := by ring
  unfold zigzag
  rw [hw1]
  have hfd : (m : Int).fdiv (2 ^ w1) = (m : Int) / 2 ^ w1 :=
    Int.fdiv_eq_ediv _ (by positivity)
  have hdiv0 : (m : Int) / 2 ^ w1 = 0 := by
    apply Int.ediv_eq_zero_of_lt (Int.ofNat_nonneg m)
    have : (m : Int) < ((2 ^ w1 : Nat) : Int) := by exact_mod_cast hm
    calc (m : Int) < ((2 ^ w1 : Nat) : Int) := this
    _ = (2 ^ w1 : Int) := by push_cast; ring
  rw [hfd, hdiv0]
  have hA : ((m : Int) * 2) % (2 ^ (w1 + 1) : Int) = ((2 * m : Nat) : Int) := by
    have he : (m : Int) * 2 = ((2 * m : Nat) : Int) := by push_cast; ring
    rw [he]
    apply natCast_emod_two_pow
    omega
  rw [hA]
  have hB : ((0 : Int)) % (2 ^ (w1 + 1) : Int) = 0 := Int.zero_emod _
  rw [hB]
  simp only [Int.toNat_ofNat, Int.toNat_zero, Nat.xor_zero]
  exact Nat.mod_eq_of_lt (by omega)

/-- The zigzag code of a negative `w`-bit value `-m` is `2 * m - 1`. -/
theorem zigzag_of_neg (w m : Nat) (hw : 0 < w) (hm1 : 1 ≤ m) (hm2 : m ≤ 2 ^ (w - 1)) :
    zigzag w (-(m : Int)) = 2 * m - 1 := by
  obtain ⟨w1, rfl⟩ : ∃ w1, w = w1 + 1 := ⟨w - 1, by omega⟩
  have hw1 : w1 + 1 - 1 = w1 := by omega
  rw [hw1] at hm2
  have hpow : (2 : Nat) ^ (w1 + 1) = 2 * 2 ^ w1 := by ring
  have h1p : 1 ≤ (2 : Nat) ^ w1 := Nat.one_le_two_pow
  unfold zigzag
  rw [hw1]
  -- the doubled value wraps to 2^w - 2m
  have hA : (-(m : Int)) * 2 % (2 ^ (w1 + 1) : Int) = ((2 ^ (w1 + 1) - 2 * m : Nat) : Int) := by
    have he : (-(m : Int)) * 2 = -((2 * m : Nat) : Int) := by push_cast; ring
    rw [he]
    exact neg_emod_two_pow (2 * m) (w1 + 1) (by omega) (by omega)
  -- the arithmetic shift yields all ones
  have hfd : (-(m : Int)).fdiv (2 ^ w1) = (-(m : Int)) / 2 ^ w1 :=
    Int.fdiv_eq_ediv _ (by positivity)
  have hdivm1 : (-(m : Int)) / (2 ^ w1 : Int) = -1 := by
    have hKp : (0 : Int) < 2 ^ w1 := by positivity
    have hsplit : (-(m : Int)) = (((2 ^ w1 - m : Nat) : Int)) + (-1) * (2 ^ w1 : Int) := by
      rw [Nat.cast_sub hm2]
      push_cast
      ring
    rw [hsplit, Int.add_mul_ediv_right _ _ (by omega)]
    have hz : (((2 ^ w1 - m : Nat) : Int)) / (2 ^ w1 : Int) = 0 := by
      apply Int.ediv_eq_zero_of_lt (Int.ofNat_nonneg _)
      have : ((2 ^ w1 - m : Nat) : Int) < ((2 ^ w1 : Nat) : Int) := by
        exact_mod_cast (by omega : 2 ^ w1 - m < 2 ^ w1)
      calc _ < ((2 ^ w1 : Nat) : Int) := this
      _ = (2 ^ w1 : Int) := by push_cast; ring
    rw [hz]
    ring
  have hB : (-1 : Int) % (2 ^ (w1 + 1) : Int) = ((2 ^ (w1 + 1) - 1 : Nat) : Int) := by
    have := neg_emod_two_pow 1 (w1 + 1) (by omega) (by omega)
    simpa using this
  rw [hA, hfd, hdivm1, hB]
  simp only [Int.toNat_ofNat]
  rw [xor_all_ones (w1 + 1) _ (by omega)]
  have hlt : 2 ^ (w1 + 1) - 1 - (2 ^ (w1 + 1) - 2 * m) < 2 ^ (w1 + 1) := by omega
  rw [Nat.mod_eq_of_lt hlt]
  omega

theorem unzigzag_even (w m : Nat) (hw : 0 < w) (hm : m < 2 ^ (w - 1)) :
    unzigzag w (2 * m) = (m : Int) := by
  obtain ⟨w1, rfl⟩ : ∃ w1, w = w1 + 1 := ⟨w - 1, by omega⟩
  have hw1 : w1 + 1 - 1 = w1 := by omega
  rw [hw1] at hm
  have hpow : (2 : Nat) ^ (w1 + 1) = 2 * 2 ^ w1 := by ring
  unfold unzigzag
  have hmod : ((2 * m : Nat) : Int) % 2 = 0 := by
    have : ((2 * m : Nat) : Int) = 2 * (m : Int) := by push_cast; ring
    omega
  rw [hmod]
  simp only [Int.neg_zero, Int.zero_emod, Int.toNat_zero, Nat.xor_zero]
  have hdiv : 2 * m / 2 = m := by omega
  rw [hdiv, Nat.mod_eq_of_lt (by omega : m < 2 ^ (w1 + 1))]
  unfold toIntW
  rw [hw1, if_pos hm]

theorem unzigzag_odd (w m : Nat) (hw : 0 < w) (hm1 : 1 ≤ m) (hm2 : m ≤ 2 ^ (w - 1)) :
    unzigzag w (2 * m - 1) = -(m : Int) := by
  obtain ⟨w1, rfl⟩ : ∃ w1, w = w1 + 1 := ⟨w - 1, by omega⟩
  have hw1 : w1 + 1 - 1 = w1 := by omega
  rw [hw1] at hm2
  have hpow : (2 : Nat) ^ (w1 + 1) = 2 * 2 ^ w1 := by ring
  have h1p : 1 ≤ (2 : Nat) ^ w1 := Nat.one_le_two_pow
  unfold unzigzag
  have hmod : ((2 * m - 1 : Nat) : Int) % 2 = 1 := by
    have : ((2 * m - 1 : Nat) : Int) = 2 * (m : Int) - 1 := by
      rw [Nat.cast_sub (by omega)]
      push_cast
      ring
    omega
  rw [hmod]
  have hB : (-(1 : Int)) % (2 ^ (w1 + 1) : Int) = ((2 ^ (w1 + 1) - 1 : Nat) : Int) := by
    have := neg_emod_two_pow 1 (w1 + 1) (by omega) (by omega)
    simpa using this
  rw [hB]
  simp only [Int.toNat_ofNat]
  have hdiv : (2 * m - 1) / 2 = m - 1 := by omega
  rw [hdiv, xor_all_ones (w1 + 1) _ (by omega)]
  have hval : 2 ^ (w1 + 1) - 1 - (m - 1) = 2 ^ (w1 + 1) - m := by omega
  rw [hval, Nat.mod_eq_of_lt (by omega)]
  unfold toIntW
  rw [hw1, if_neg (by omega)]
  have : ((2 ^ (w1 + 1) - m : Nat) : Int) = (2 ^ (w1 + 1) : Int) - (m : Int) := by
    rw [Nat.cast_sub (by omega)]
    push_cast
    ring
  rw [this]
  push_cast
  ring

/-- The zigzag code is a `w`-bit value. -/
theorem zigzag_lt (w : Nat) (n : Int) (hw : 0 < w) : zigzag w n < 2 ^ w := by
  unfold zigzag
  exact Nat.mod_lt _ (Nat.pos_pow_of_pos _ (by omega))

/-- The round trip of the signed transform on every representable
`w`-bit signed value. -/
theorem unzigzag_zigzag (w : Nat) (hw : 0 < w) (n : Int)
    (h1 : -(2 ^ (w - 1)) ≤ n) (h2 : n < 2 ^ (w - 1)) :
    unzigzag w (zigzag w n) = n := by
  by_cases hn : 0 ≤ n
  · obtain ⟨m, rfl⟩ : ∃ m : Nat, n = (m : Int) := ⟨n.toNat, (Int.toNat_of_nonneg hn).symm⟩
    have hm : m < 2 ^ (w - 1) := by
      have : ((m : Int)) < ((2 ^ (w - 1) : Nat) : Int) := by
        calc (m : Int) < 2 ^ (w - 1) := h2
        _ = ((2 ^ (w - 1) : Nat) : Int) := by push_cast; ring
      exact_mod_cast this
    rw [zigzag_of_nonneg w m hw hm]
    exact unzigzag_even w m hw hm
  · obtain ⟨m, hmn⟩ : ∃ m : Nat, n = -(m : Int) :=
      ⟨(-n).toNat, by
        have : (0 : Int) ≤ -n := by omega
        rw [Int.toNat_of_nonneg this]
        ring⟩
    subst hmn
    have hm1 : 1 ≤ m := by
      by_contra hc
      have : m = 0 := by omega
      subst this
      simp at hn
    have hm2 : m ≤ 2 ^ (w - 1) := by
      have : ((m : Int)) ≤ ((2 ^ (w - 1) : Nat) : Int) := by
        have he : ((2 ^ (w - 1) : Nat) : Int) = (2 : Int) ^ (w - 1) := by push_cast; ring
        omega
      exact_mod_cast this
    rw [zigzag_of_neg w m hw hm1 hm2]
    exact unzigzag_odd w m hw hm1 hm2

theorem decodeZigzag_of_ok (t : Target) (bytes : List Nat) (v l : Nat)
    (h : decode t bytes = .ok v l) :
    decodeZigzag t bytes = .ok (unzigzag t.bits v) l := by
  unfold decodeZigzag
  rw [h]

theorem encodeZigzag_fst (t : Target) (n : Int) :
    (encodeZigzag t n).1 = encList (zigzag t.bits n) := by
  unfold encodeZigzag
  exact encode_fst _

theorem encodeZigzag_snd (t : Target) (n : Int) :
    (encodeZigzag t n).2 = encLen (zigzag t.bits n) := by
  unfold encodeZigzag
  exact encode_snd _

/-- **C7.** For every representable signed value `n` of every supported
width, `unzigzag (zigzag n) = n`, and decoding the buffer produced by
`encode_zigzag n` with `decode_zigzag` returns
`Ok (n, encode_zigzag(n).length)`. -/
theorem claim7_zigzag_roundtrip (t : Target) (ht : t ∈ supportedTargets) (n : Int)
    (h1 : -(2 ^ (t.bits - 1)) ≤ n) (h2 : n < 2 ^ (t.bits - 1)) :
    unzigzag t.bits (zigzag t.bits n) = n ∧
    decodeZigzag t (encodeZigzag t n).1 = .ok n (encodeZigzag t n).2 := by
  obtain ⟨hb, hb64, hmax2, hmax10⟩ := supported_bits ht
  have hbij := unzigzag_zigzag t.bits hb n h1 h2
  refine ⟨hbij, ?_⟩
  rw [encodeZigzag_fst, encodeZigzag_snd]
  have hlt : zigzag t.bits n < 2 ^ t.bits := zigzag_lt t.bits n hb
  have hdec : decode t (encList (zigzag t.bits n)) = .ok (zigzag t.bits n) (encLen (zigzag t.bits n)) := by
    rcases mem_supported ht with rfl | rfl | rfl | rfl
    · exact decode_encodeRaw u8 (by decide) (by decide) (by decide) (by decide) _ hlt
    · exact decode_encodeRaw u16 (by decide) (by decide) (by decide) (by decide) _ hlt
    · exact decode_encodeRaw u32 (by decide) (by decide) (by decide) (by decide) _ hlt
    · exact decode_encodeRaw u64 (by decide) (by decide) (by decide) (by decide) _ hlt
  rw [decodeZigzag_of_ok t _ _ _ hdec, hbij]

/-- Witness for C7 at the concrete input `-20 : i32`
(`encode_zigzag(-20) = ([0x27, 0, …], 1)`). -/
theorem claim7_zigzag_roundtrip_witness :
    unzigzag u32.bits (zigzag u32.bits (-20)) = -20 ∧
    decodeZigzag u32 (encodeZigzag u32 (-20)).1 = .ok (-20) (encodeZigzag u32 (-20)).2 :=
  claim7_zigzag_roundtrip u32 (by decide) (-20) (by decide) (by decide)

/-! ### encode_to_slice -/

theorem byteAt_eq (w : List Nat) (i : Nat) : byteAt w i = (w[i]?).getD 0 := by
  unfold byteAt
  rw [List.getD_eq_getElem?_getD]

theorem byteAt_spliced_lt (a b : List Nat) (n i : Nat) (hna : n ≤ a.length) (hi : i < n) :
    byteAt (a.take n ++ b.drop n) i = byteAt a i := by
  have h1 : (a.take n).length = n := by
    rw [List.length_take]
    omega
  rw [byteAt_eq, byteAt_eq]
  rw [List.getElem?_append_left (by rw [h1]; omega)]
  rw [List.getElem?_take_of_lt hi]

theorem byteAt_spliced_ge (a b : List Nat) (n i : Nat) (hna : n ≤ a.length)
    (hnb : n ≤ b.length) (hi : n ≤ i) :
    byteAt (a.take n ++ b.drop n) i = byteAt b i := by
  have h1 : (a.take n).length = n := by
    rw [List.length_take]
    omega
  rw [byteAt_eq, byteAt_eq]
  by_cases hib : i < b.length
  · rw [List.getElem?_append_right (by rw [h1]; omega)]
    rw [h1, List.getElem?_drop]
    have hidx : n + (i - n) = i := by omega
    rw [hidx]
  · have hlenw : (a.take n ++ b.drop n).length = b.length := by
      rw [List.length_append, h1, List.length_drop]
      omega
    rw [List.getElem?_eq_none (by omega), List.getElem?_eq_none (by omega)]

theorem spliced_length (a b : List Nat) (n : Nat) (hna : n ≤ a.length) (hnb : n ≤ b.length) :
    (a.take n ++ b.drop n).length = b.length := by
  rw [List.length_append, List.length_take, List.length_drop]
  omega

/-- **C8.** `encode_to_slice(v, out)`: when `out` is shorter than the
encoded length the call fails before writing anything (a documented
panic, modelled as the error outcome `none`, with `out` untouched);
otherwise it writes exactly the meaningful bytes of the encoding into
the first `length` positions of `out`, leaves every byte from position
`length` on unchanged, and returns the length. -/
theorem claim8_encode_to_slice (t : Target) (ht : t ∈ supportedTargets) (v : Nat)
    (hv : v < 2 ^ t.bits) (out : List Nat) :
    (out.length < (encode v).2 → encodeToSlice v out = none) ∧
    ((encode v).2 ≤ out.length →
      ∃ o, encodeToSlice v out = some (o, (encode v).2) ∧
        o.length = out.length ∧
        (∀ i, i < (encode v).2 → byteAt o i = byteAt (encode v).1 i) ∧
        (∀ i, (encode v).2 ≤ i → byteAt o i = byteAt out i)) := by
  obtain ⟨hb, hb64, hmax2, hmax10⟩ := supported_bits ht
  have hv64 : v < 2 ^ 64 := by
    have hple : (2 : Nat) ^ t.bits ≤ 2 ^ 64 := Nat.pow_le_pow_right (by omega) hb64
    omega
  have hten := encLen_le_ten v hv64
  have h16 : encLen v ≤ (encList v).length := by
    rw [encList_length]
    omega
  unfold encodeToSlice
  rw [encode_fst, encode_snd]
  constructor
  · intro h
    rw [if_pos h]
  · intro h
    rw [if_neg (by omega)]
    refine ⟨(encList v).take (encLen v) ++ out.drop (encLen v), rfl, ?_, ?_, ?_⟩
    · exact spliced_length _ _ _ h16 h
    · intro i hi
      exact byteAt_spliced_lt _ _ _ _ h16 hi
    · intro i hi
      exact byteAt_spliced_ge _ _ _ _ h16 h hi

/-- Witness for C8: a 1-byte output slice is too short for the 2-byte
encoding of 1337, so the call fails. -/
theorem claim8_encode_to_slice_witness : encodeToSlice 1337 [0] = none :=
  (claim8_encode_to_slice u32 (by decide) 1337 (by decide) [0]).1 (by decide)

/-! ### Bit-extraction toolkit for the turbo reconstruction paths -/

theorem and_mask_shift (x m s : Nat) : x &&& m * 2 ^ s = (x / 2 ^ s &&& m) * 2 ^ s := by
  apply Nat.eq_of_testBit_eq
  intro i
  rw [← Nat.shiftLeft_eq m s, ← Nat.shiftLeft_eq _ s, ← Nat.shiftRight_eq_div_pow]
  rw [Nat.testBit_and, Nat.testBit_shiftLeft, Nat.testBit_shiftLeft, Nat.testBit_and,
    Nat.testBit_shiftRight]
  by_cases hs : s ≤ i
  · have hi : s + (i - s) = i := by omega
    rw [hi]
    simp only [hs]
    cases x.testBit i <;> cases m.testBit (i - s) <;> simp
  · simp [hs]

theorem or_mul_two_pow : ∀ k a b, a < 2 ^ k → a ||| b * 2 ^ k = a + b * 2 ^ k := by
  intro k
  induction k with
  | zero =>
    intro a b ha
    have ha0 : a = 0 := by omega
    subst ha0
    simp
  | succ k ih =>
    intro a b ha
    have hpow : (2 : Nat) ^ (k + 1) = 2 * 2 ^ k := by ring
    have ha2 : a / 2 < 2 ^ k := by omega
    have hd1 : a = Nat.bit (decide (a % 2 = 1)) (a / 2) := by
      rw [Nat.bit_val]
      rcases Nat.mod_two_eq_zero_or_one a with h | h <;> simp [h] <;> omega
    have hd2 : b * 2 ^ (k + 1) = Nat.bit false (b * 2 ^ k) := by
      rw [Nat.bit_val]
      simp [hpow]
      ring
    conv_lhs => rw [hd1, hd2]
    rw [Nat.lor_bit, ih (a / 2) b ha2, Nat.bit_val]
    have hz : b * 2 ^ (k + 1) = 2 * (b * 2 ^ k) := by
      rw [hpow]
      ring
    rcases Nat.mod_two_eq_zero_or_one a with h | h <;> simp [h] <;> omega

theorem and_ones (x k : Nat) : x &&& 2 ^ k - 1 = x % 2 ^ k :=
  Nat.and_pow_two_sub_one_eq_mod x k

theorem tp7 : (2 : Nat) ^ 7 = 128 := by norm_num

theorem tp8 : (2 : Nat) ^ 8 = 256 := by norm_num

theorem tp14 : (2 : Nat) ^ 14 = 16384 := by norm_num

theorem tp16 : (2 : Nat) ^ 16 = 65536 := by norm_num

theorem tp21 : (2 : Nat) ^ 21 = 2097152 := by norm_num

theorem tp28 : (2 : Nat) ^ 28 = 268435456 := by norm_num

theorem tp32 : (2 : Nat) ^ 32 = 4294967296 := by norm_num

theorem laneAux_congr (w1 w2 : List Nat) :
    ∀ f s1 s2, (∀ j, j < f → byteAt w1 (s1 + j) = byteAt w2 (s2 + j)) →
      laneAux w1 s1 f = laneAux w2 s2 f := by
  intro f
  induction f with
  | zero => intro s1 s2 _; rfl
  | succ f ih =>
    intro s1 s2 h
    have h0 : byteAt w1 s1 = byteAt w2 s2 := by simpa using h 0 (by omega)
    have htail : laneAux w1 (s1 + 1) f = laneAux w2 (s2 + 1) f := by
      apply ih
      intro j hj
      have hx := h (j + 1) (by omega)
      have e1 : s1 + (j + 1) = s1 + 1 + j := by omega
      have e2 : s2 + (j + 1) = s2 + 1 + j := by omega
      rwa [e1, e2] at hx
    show byteAt w1 s1 + 256 * laneAux w1 (s1 + 1) f
      = byteAt w2 s2 + 256 * laneAux w2 (s2 + 1) f
    rw [h0, htail]

theorem varVal_of_zero (w : List Nat) :
    ∀ f k, k ≤ f → (∀ i, k ≤ i → byteAt w i = 0) → varVal w 0 f = varVal w 0 k := by
  intro f
  induction f with
  | zero =>
    intro k hk _
    have : k = 0 := by omega
    subst this
    rfl
  | succ f ih =>
    intro k hk hzero
    by_cases hkf : k = f + 1
    · subst hkf
      rfl
    · have hb : byteAt w (0 + f) = 0 := by
        rw [Nat.zero_add]
        exact hzero f (by omega)
      show varVal w 0 f + byteAt w (0 + f) % 128 * 2 ^ (7 * f) = varVal w 0 k
      rw [hb, Nat.zero_mod, Nat.zero_mul, Nat.add_zero]
      exact ih k (by omega) hzero

theorem bits_of_max2 {v : Target} (hv : v ∈ supportedTargets)
    (h : v.maxVarintBytes ≤ 2) : v.bits = 8 := by
  rcases mem_supported hv with rfl | rfl | rfl | rfl
  · rfl
  · exact absurd h (by decide)
  · exact absurd h (by decide)
  · exact absurd h (by decide)

theorem bits_of_max3 {v : Target} (hv : v ∈ supportedTargets)
    (h : v.maxVarintBytes ≤ 3) : v.bits = 8 ∨ v.bits = 16 := by
  rcases mem_supported hv with rfl | rfl | rfl | rfl
  · exact Or.inl rfl
  · exact Or.inr rfl
  · exact absurd h (by decide)
  · exact absurd h (by decide)

theorem width_of_max8 {v : Target} (hv : v ∈ supportedTargets)
    (h : v.maxVarintBytes ≤ 8) :
    v.maxVarintBytes ≤ 5 ∧ (v.bits = 8 ∨ v.bits = 16 ∨ v.bits = 32) := by
  rcases mem_supported hv with rfl | rfl | rfl | rfl
  · exact ⟨by decide, Or.inl rfl⟩
  · exact ⟨by decide, Or.inr (Or.inl rfl)⟩
  · exact ⟨by decide, Or.inr (Or.inr rfl)⟩
  · exact absurd h (by decide)

theorem tier2_eval (c b0 b1 : Nat) (hc : c = b0 + 256 * b1)
    (h0 : b0 < 256) (h1 : b1 < 256) :
    tier2Formula c = b0 % 128 + b1 % 2 * 2 ^ 7 := by
  unfold tier2Formula
  have hA : c &&& 0x7f = b0 % 128 := by
    rw [show (0x7f : Nat) = 2 ^ 7 - 1 from by norm_num, and_ones, tp7, hc]
    omega
  have hB : (c &&& 0x100) >>> 1 = b1 % 2 * 2 ^ 7 := by
    rw [show (0x100 : Nat) = 1 * 2 ^ 8 from by norm_num, and_mask_shift,
      Nat.and_one_is_mod, Nat.shiftRight_eq_div_pow, hc, tp7, tp8,
      show (2 : Nat) ^ 1 = 2 from by norm_num]
    omega
  rw [hA, hB]
  exact or_mul_two_pow 7 (b0 % 128) (b1 % 2) (by rw [tp7]; omega)

theorem tier3_eval (c b0 b1 b2 : Nat) (hc : c = b0 + 256 * (b1 + 256 * b2))
    (h0 : b0 < 256) (h1 : b1 < 256) (h2 : b2 < 256) :
    tier3Formula c = b0 % 128 + b1 % 128 * 2 ^ 7 + b2 % 4 * 2 ^ 14 := by
  unfold tier3Formula
  have hA : c &&& 0x7f = b0 % 128 := by
    rw [show (0x7f : Nat) = 2 ^ 7 - 1 from by norm_num, and_ones, tp7, hc]
    omega
  have hB : (c &&& 0x30000) >>> 2 = b2 % 4 * 2 ^ 14 := by
    rw [show (0x30000 : Nat) = 3 * 2 ^ 16 from by norm_num, and_mask_shift,
      show (3 : Nat) = 2 ^ 2 - 1 from by norm_num, and_ones,
      Nat.shiftRight_eq_div_pow, hc, tp16, tp14,
      show (2 : Nat) ^ 2 = 4 from by norm_num]
    omega
  have hC : (c &&& 0x7f00) >>> 1 = b1 % 128 * 2 ^ 7 := by
    rw [show (0x7f00 : Nat) = 127 * 2 ^ 8 from by norm_num, and_mask_shift,
      show (127 : Nat) = 2 ^ 7 - 1 from by norm_num, and_ones,
      Nat.shiftRight_eq_div_pow, hc, tp7, tp8,
      show (2 : Nat) ^ 1 = 2 from by norm_num]
    omega
  rw [hA, hB, hC]
  rw [Nat.or_assoc, Nat.or_comm (b2 % 4 * 2 ^ 14) (b1 % 128 * 2 ^ 7)]
  rw [or_mul_two_pow 14 (b1 % 128 * 2 ^ 7) (b2 % 4) (by rw [tp7, tp14]; omega)]
  rw [show b1 % 128 * 2 ^ 7 + b2 % 4 * 2 ^ 14
      = (b1 % 128 + b2 % 4 * 2 ^ 7) * 2 ^ 7 from by ring]
  rw [or_mul_two_pow 7 (b0 % 128) (b1 % 128 + b2 % 4 * 2 ^ 7) (by rw [tp7]; omega)]
  ring

theorem tierG_eval (c b0 b1 b2 b3 b4 : Nat)
    (hc : c = b0 + 256 * (b1 + 256 * (b2 + 256 * (b3 + 256 * b4))))
    (h0 : b0 < 256) (h1 : b1 < 256) (h2 : b2 < 256) (h3 : b3 < 256) (h4 : b4 < 256) :
    tierGFormula c
      = b0 % 128 + b1 % 128 * 2 ^ 7 + b2 % 128 * 2 ^ 14
        + b3 % 128 * 2 ^ 21 + b4 % 16 * 2 ^ 28 := by
  unfold tierGFormula
  have hA : c &&& 0x7f = b0 % 128 := by
    rw [show (0x7f : Nat) = 2 ^ 7 - 1 from by norm_num, and_ones, tp7, hc]
    omega
  have hE4 : (c &&& 0xf00000000) >>> 4 = b4 % 16 * 2 ^ 28 := by
    rw [show (0xf00000000 : Nat) = 15 * 2 ^ 32 from by norm_num, and_mask_shift,
      show (15 : Nat) = 2 ^ 4 - 1 from by norm_num, and_ones,
      Nat.shiftRight_eq_div_pow, hc, tp32, tp28,
      show (2 : Nat) ^ 4 = 16 from by norm_num]
    omega
  have hE3 : (c &&& 0x7f000000) >>> 3 = b3 % 128 * 2 ^ 21 := by
    rw [show (0x7f000000 : Nat) = 127 * 2 ^ 24 from by norm_num, and_mask_shift,
      show (127 : Nat) = 2 ^ 7 - 1 from by norm_num, and_ones,
      Nat.shiftRight_eq_div_pow, hc, tp7, tp21,
      show (2 : Nat) ^ 24 = 16777216 from by norm_num,
      show (2 : Nat) ^ 3 = 8 from by norm_num]
    omega
  have hE2 : (c &&& 0x7f0000) >>> 2 = b2 % 128 * 2 ^ 14 := by
    rw [show (0x7f0000 : Nat) = 127 * 2 ^ 16 from by norm_num, and_mask_shift,
      show (127 : Nat) = 2 ^ 7 - 1 from by norm_num, and_ones,
      Nat.shiftRight_eq_div_pow, hc, tp7, tp16, tp14,
      show (2 : Nat) ^ 2 = 4 from by norm_num]
    omega
  have hE1 : (c &&& 0x7f00) >>> 1 = b1 % 128 * 2 ^ 7 := by
    rw [show (0x7f00 : Nat) = 127 * 2 ^ 8 from by norm_num, and_mask_shift,
      show (127 : Nat) = 2 ^ 7 - 1 from by norm_num, and_ones,
      Nat.shiftRight_eq_div_pow, hc, tp7, tp8,
      show (2 : Nat) ^ 1 = 2 from by norm_num]
    omega
  rw [hA, hE4, hE3, hE2, hE1]
  rw [Nat.or_comm (b3 % 128 * 2 ^ 21) (b2 % 128 * 2 ^ 14)]
  rw [or_mul_two_pow 21 (b2 % 128 * 2 ^ 14) (b3 % 128) (by rw [tp14, tp21]; omega)]
  rw [Nat.or_comm (b2 % 128 * 2 ^ 14 + b3 % 128 * 2 ^ 21) (b1 % 128 * 2 ^ 7)]
  rw [show b2 % 128 * 2 ^ 14 + b3 % 128 * 2 ^ 21
      = (b2 % 128 + b3 % 128 * 2 ^ 7) * 2 ^ 14 from by ring]
  rw [or_mul_two_pow 14 (b1 % 128 * 2 ^ 7) (b2 % 128 + b3 % 128 * 2 ^ 7)
    (by rw [tp7, tp14]; omega)]
  rw [Nat.or_assoc]
  rw [Nat.or_comm (b4 % 16 * 2 ^ 28)
    (b1 % 128 * 2 ^ 7 + (b2 % 128 + b3 % 128 * 2 ^ 7) * 2 ^ 14)]
  rw [or_mul_two_pow 28 (b1 % 128 * 2 ^ 7 + (b2 % 128 + b3 % 128 * 2 ^ 7) * 2 ^ 14)
    (b4 % 16) (by rw [tp7, tp14, tp28]; omega)]
  rw [show b1 % 128 * 2 ^ 7 + (b2 % 128 + b3 % 128 * 2 ^ 7) * 2 ^ 14 + b4 % 16 * 2 ^ 28
      = (b1 % 128 + (b2 % 128 + b3 % 128 * 2 ^ 7) * 2 ^ 7 + b4 % 16 * 2 ^ 21) * 2 ^ 7
    from by ring]
  rw [or_mul_two_pow 7 (b0 % 128)
    (b1 % 128 + (b2 % 128 + b3 % 128 * 2 ^ 7) * 2 ^ 7 + b4 % 16 * 2 ^ 21)
    (by rw [tp7]; omega)]
  ring

theorem turbo_value_eq (t u v : Target) (hv : v ∈ supportedTargets)
    (hv8 : v.maxVarintBytes ≤ 8)
    (h2v : t.maxVarintBytes ≤ 2 ∧ u.maxVarintBytes ≤ 2 → v.maxVarintBytes ≤ 2)
    (h3v : t.maxVarintBytes ≤ 3 ∧ u.maxVarintBytes ≤ 3 → v.maxVarintBytes ≤ 3)
    (wv : List Nat) (hwv : ∀ i, byteAt wv i < 256)
    (hmask : ∀ i, v.maxVarintBytes ≤ i → byteAt wv i = 0) :
    castU32 v
        ((if t.maxVarintBytes ≤ 2 ∧ u.maxVarintBytes ≤ 2 then
            tier2Formula (laneAux wv 0 8)
          else if t.maxVarintBytes ≤ 3 ∧ u.maxVarintBytes ≤ 3 then
            tier3Formula (laneAux wv 0 8)
          else tierGFormula (laneAux wv 0 8)) % 2 ^ 32)
      = vectorToNum v wv := by
  unfold castU32 vectorToNum
  have hlane : laneAux wv 0 8
      = byteAt wv 0 + 256 * (byteAt wv 1 + 256 * (byteAt wv 2 + 256 * (byteAt wv 3
          + 256 * (byteAt wv 4 + 256 * (byteAt wv 5 + 256 * (byteAt wv 6
          + 256 * byteAt wv 7)))))) := rfl
  by_cases hc2 : t.maxVarintBytes ≤ 2 ∧ u.maxVarintBytes ≤ 2
  · rw [if_pos hc2]
    have hv2 := h2v hc2
    have hb8 : v.bits = 8 := bits_of_max2 hv hv2
    have hz : ∀ i, 2 ≤ i → byteAt wv i = 0 := fun i hi => hmask i (by omega)
    have hcl : laneAux wv 0 8 = byteAt wv 0 + 256 * byteAt wv 1 := by
      rw [hlane, hz 2 (by omega), hz 3 (by omega), hz 4 (by omega), hz 5 (by omega),
        hz 6 (by omega), hz 7 (by omega)]
      omega
    rw [hcl, tier2_eval (byteAt wv 0 + 256 * byteAt wv 1) (byteAt wv 0) (byteAt wv 1)
      rfl (hwv 0) (hwv 1)]
    have hvv : varVal wv 0 16 = varVal wv 0 2 := varVal_of_zero wv 16 2 (by omega) hz
    have hvv2 : varVal wv 0 2 = 0 + byteAt wv 0 % 128 * 1 + byteAt wv 1 % 128 * 2 ^ 7 := rfl
    rw [hvv, hvv2, hb8, tp7, tp32, tp8]
    omega
  · rw [if_neg hc2]
    by_cases hc3 : t.maxVarintBytes ≤ 3 ∧ u.maxVarintBytes ≤ 3
    · rw [if_pos hc3]
      have hv3 := h3v hc3
      have hb816 := bits_of_max3 hv hv3
      have hz : ∀ i, 3 ≤ i → byteAt wv i = 0 := fun i hi => hmask i (by omega)
      have hcl : laneAux wv 0 8 = byteAt wv 0 + 256 * (byteAt wv 1 + 256 * byteAt wv 2) := by
        rw [hlane, hz 3 (by omega), hz 4 (by omega), hz 5 (by omega), hz 6 (by omega),
          hz 7 (by omega)]
        omega
      rw [hcl, tier3_eval (byteAt wv 0 + 256 * (byteAt wv 1 + 256 * byteAt wv 2))
        (byteAt wv 0) (byteAt wv 1) (byteAt wv 2) rfl (hwv 0) (hwv 1) (hwv 2)]
      have hvv : varVal wv 0 16 = varVal wv 0 3 := varVal_of_zero wv 16 3 (by omega) hz
      have hvv3 : varVal wv 0 3 = 0 + byteAt wv 0 % 128 * 1 + byteAt wv 1 % 128 * 2 ^ 7
          + byteAt wv 2 % 128 * 2 ^ 14 := rfl
      rw [hvv, hvv3]
      rcases hb816 with hb | hb
      · rw [hb, tp7, tp14, tp32, tp8]
        omega
      · rw [hb, tp7, tp14, tp32, tp16]
        omega
    · rw [if_neg hc3]
      obtain ⟨hm5, hbits⟩ := width_of_max8 hv hv8
      have hz : ∀ i, 5 ≤ i → byteAt wv i = 0 := fun i hi => hmask i (by omega)
      have hcl : laneAux wv 0 8 = byteAt wv 0 + 256 * (byteAt wv 1 + 256 * (byteAt wv 2
          + 256 * (byteAt wv 3 + 256 * byteAt wv 4))) := by
        rw [hlane, hz 5 (by omega), hz 6 (by omega), hz 7 (by omega)]
        omega
      rw [hcl, tierG_eval (byteAt wv 0 + 256 * (byteAt wv 1 + 256 * (byteAt wv 2
          + 256 * (byteAt wv 3 + 256 * byteAt wv 4))))
        (byteAt wv 0) (byteAt wv 1) (byteAt wv 2) (byteAt wv 3) (byteAt wv 4) rfl
        (hwv 0) (hwv 1) (hwv 2) (hwv 3) (hwv 4)]
      have hvv : varVal wv 0 16 = varVal wv 0 5 := varVal_of_zero wv 16 5 (by omega) hz
      have hvv5 : varVal wv 0 5 = 0 + byteAt wv 0 % 128 * 1 + byteAt wv 1 % 128 * 2 ^ 7
          + byteAt wv 2 % 128 * 2 ^ 14 + byteAt wv 3 % 128 * 2 ^ 21
          + byteAt wv 4 % 128 * 2 ^ 28 := rfl
      rw [hvv, hvv5]
      rcases hbits with hb | hb | hb
      · rw [hb, tp7, tp14, tp21, tp28, tp32, tp8]
        omega
      · rw [hb, tp7, tp14, tp21, tp28, tp32, tp16]
        omega
      · rw [hb, tp7, tp14, tp21, tp28, tp32]
        omega

/-- **C6.**  In the 16-byte two-value batch decoder `decode_two_unsafe`,
for every supported type pair to which the turbo path applies (both
maximum varint lengths at most 8 bytes) and every byte window holding
two valid adjacent varints within the two types' length budgets, the
turbo bit-shift-and-mask reconstruction returns exactly the same
(first value, first length, second value, second length) quadruple as
the general per-value vector reconstruction path. -/
theorem claim6_turbo_matches_general (t u : Target) (ht : t ∈ supportedTargets)
    (hu : u ∈ supportedTargets) (ht8 : t.maxVarintBytes ≤ 8) (hu8 : u.maxVarintBytes ≤ 8)
    (w : List Nat) (hw : ∀ i, byteAt w i < 256) (l1 l2 : Nat)
    (hl1 : 1 ≤ l1) (hl1t : l1 ≤ t.maxVarintBytes)
    (hl2 : 1 ≤ l2) (hl2u : l2 ≤ u.maxVarintBytes)
    (hset1 : ∀ j, j < l1 - 1 → bit7 (byteAt w j) = 1)
    (hclr1 : bit7 (byteAt w (l1 - 1)) = 0)
    (hset2 : ∀ j, j < l2 - 1 → bit7 (byteAt w (l1 + j)) = 1)
    (hclr2 : bit7 (byteAt w (l1 + (l2 - 1))) = 0) :
    decodeTwoRaw t u true w = decodeTwoRaw t u false w := by
  have hl18 : l1 ≤ 8 := by omega
  have hl28 : l2 ≤ 8 := by omega
  have h16 : ¬ 16 < t.maxVarintBytes + u.maxVarintBytes := by omega
  have hcc1 : contCount w 0 16 = l1 - 1 := by
    apply contCount_eq w (l1 - 1) 0 16
    · intro j hj
      rw [Nat.zero_add]
      exact hset1 j hj
    · rw [Nat.zero_add]
      exact hclr1
    · omega
  have hfl : ctzGo 32 (2 ^ 32 - 1 - mmAux w 0 16) + 1 = l1 := by
    rw [ctzGo_mm w 16 32 32 0 (by omega) (by omega), hcc1]
    omega
  have hcc2 : contCount w (0 + l1) (16 - l1) = l2 - 1 := by
    apply contCount_eq w (l2 - 1) (0 + l1) (16 - l1)
    · intro j hj
      have e : 0 + l1 + j = l1 + j := by omega
      rw [e]
      exact hset2 j hj
    · have e : 0 + l1 + (l2 - 1) = l1 + (l2 - 1) := by omega
      rw [e]
      exact hclr2
    · omega
  have hsl : ctzGo 32 ((2 ^ 32 - 1 - mmAux w 0 16) / 2 ^ l1) + 1 = l2 := by
    rw [mm_div_two_pow w l1 16 32 0 (by omega) (by omega)]
    rw [ctzGo_mm w (16 - l1) (32 - l1) 32 (0 + l1) (by omega) (by omega)]
    rw [hcc2]
    omega
  have hbF : ∀ i, byteAt (maskedFirst w l1) i < 256 := by
    intro i
    unfold maskedFirst
    rw [byteAt_rangeMap]
    by_cases hi : i < 16
    · rw [if_pos hi]
      by_cases hil : i < l1
      · rw [if_pos hil]
        exact hw i
      · rw [if_neg hil]
        omega
    · rw [if_neg hi]
      omega
  have hmF : ∀ i, t.maxVarintBytes ≤ i → byteAt (maskedFirst w l1) i = 0 := by
    intro i hi
    unfold maskedFirst
    rw [byteAt_rangeMap]
    by_cases h16i : i < 16
    · rw [if_pos h16i, if_neg (show ¬ i < l1 by omega)]
    · rw [if_neg h16i]
  have hbS : ∀ i, byteAt (maskedSecond w l1 l2) i < 256 := by
    intro i
    unfold maskedSecond
    rw [byteAt_rangeMap]
    by_cases hi : i < 16
    · rw [if_pos hi]
      by_cases hil : i < l2
      · rw [if_pos hil]
        exact hw ((i + l1) % 16)
      · rw [if_neg hil]
        omega
    · rw [if_neg hi]
      omega
  have hmS : ∀ i, u.maxVarintBytes ≤ i → byteAt (maskedSecond w l1 l2) i = 0 := by
    intro i hi
    unfold maskedSecond
    rw [byteAt_rangeMap]
    by_cases h16i : i < 16
    · rw [if_pos h16i, if_neg (show ¬ i < l2 by omega)]
    · rw [if_neg h16i]
  have hlane0 : laneAux (combWin w l1 l2) 0 8 = laneAux (maskedFirst w l1) 0 8 := by
    apply laneAux_congr
    intro j hj
    rw [Nat.zero_add]
    unfold combWin
    rw [byteAt_rangeMap, if_pos (show j < 16 by omega), if_neg (show ¬ 8 ≤ j by omega)]
    exact Nat.or_zero _
  have hlane1 : laneAux (combWin w l1 l2) 8 8 = laneAux (maskedSecond w l1 l2) 0 8 := by
    apply laneAux_congr
    intro j hj
    rw [Nat.zero_add]
    unfold combWin
    rw [byteAt_rangeMap, if_pos (show 8 + j < 16 by omega),
      if_pos (show 8 ≤ 8 + j by omega)]
    have hFz : byteAt (maskedFirst w l1) (8 + j) = 0 := hmF (8 + j) (by omega)
    have hidx : 8 + j - 8 = j := by omega
    rw [hFz, hidx, Nat.zero_or]
  have hx0 : castU32 t
      ((if t.maxVarintBytes ≤ 2 ∧ u.maxVarintBytes ≤ 2 then
          tier2Formula (laneAux (combWin w l1 l2) 0 8)
        else if t.maxVarintBytes ≤ 3 ∧ u.maxVarintBytes ≤ 3 then
          tier3Formula (laneAux (combWin w l1 l2) 0 8)
        else tierGFormula (laneAux (combWin w l1 l2) 0 8)) % 2 ^ 32)
      = vectorToNum t (maskedFirst w l1) := by
    rw [hlane0]
    exact turbo_value_eq t u t ht ht8 (fun h => h.1) (fun h => h.1)
      (maskedFirst w l1) hbF hmF
  have hx1 : castU32 u
      ((if t.maxVarintBytes ≤ 2 ∧ u.maxVarintBytes ≤ 2 then
          tier2Formula (laneAux (combWin w l1 l2) 8 8)
        else if t.maxVarintBytes ≤ 3 ∧ u.maxVarintBytes ≤ 3 then
          tier3Formula (laneAux (combWin w l1 l2) 8 8)
        else tierGFormula (laneAux (combWin w l1 l2) 8 8)) % 2 ^ 32)
      = vectorToNum u (maskedSecond w l1 l2) := by
    rw [hlane1]
    exact turbo_value_eq t u u hu hu8 (fun h => h.2) (fun h => h.2)
      (maskedSecond w l1 l2) hbS hmS
  unfold decodeTwoRaw
  rw [if_neg h16, if_neg h16]
  simp only []
  rw [hfl, hsl]
  rw [if_pos (show t.maxVarintBytes ≤ 8 ∧ u.maxVarintBytes ≤ 8 ∧ True
    from ⟨ht8, hu8, trivial⟩)]
  rw [if_neg (show ¬ (t.maxVarintBytes ≤ 8 ∧ u.maxVarintBytes ≤ 8 ∧ false = true)
    from by simp)]
  rw [hx0, hx1]

theorem claim6_turbo_matches_general_witness :
    decodeTwoRaw u8 u8 true [150, 1, 5] = decodeTwoRaw u8 u8 false [150, 1, 5] :=
  claim6_turbo_matches_general u8 u8 (by decide) (by decide) (by decide) (by decide)
    [150, 1, 5]
    (fun i => by
      match i with
      | 0 => decide
      | 1 => decide
      | 2 => decide
      | n + 3 => show (0 : Nat) < 256; decide)
    2 1 (by decide) (by decide) (by decide) (by decide)
    (fun j hj => by
      have hj0 : j = 0 := by omega
      subst hj0
      decide)
    (by decide)
    (fun j hj => by omega)
    (by decide)

/-- **C5** (counterexample, wide form).  Feeding the concatenation of the
meaningful bytes of `encode 300` (`0xAC 0x02`) and of `encode 5` (`0x05`)
to the 32-byte two-value decoder returns the first value again in the
second slot, `(300, 2, 300, 1)`, not the claimed `(300, 2, 5, 1)`:
`_mm_extract_epi64(x, 2)` masks its immediate to the existing lanes
(`imm8 & 1`), extracting lane 0 twice. -/
theorem claim5_wide_counterexample :
    decodeTwoWideRaw u64 u64 ([172, 2, 5] ++ List.replicate 29 0)
      = (300, 2, 300, 1) := by decide

end VarintSimd
